import Mathlib

/-!
Verification of the graph-engine subsystem (lab-10): two storage backends
(adjacency matrix and adjacency list) and the classical algorithms
(BFS, DFS, Dijkstra, connectivity, topological sort) that operate on them.

The Python code is shallowly embedded: Python dicts become insertion-ordered
association lists, floats become rationals (all weights in the claims are
exactly representable), unbounded while-loops become fuel-indexed recursion
with provably sufficient fuel, and statements that can raise become Except.
-/

namespace GraphEngine

/-- Edge weights; Python floats are modelled as rationals. -/
abbrev Weight := ℚ

/-- An insertion-ordered dictionary with Int keys, mirroring a Python dict. -/
abbrev Dict (α : Type) := List (Int × α)

/-- Ordered key list of a dictionary, as Python dict iteration order. -/
def dictKeys {α : Type} (d : Dict α) : List Int := d.map (·.1)

/-- Lookup of a key, first (and in a real dict only) binding wins. -/
def dictLookup {α : Type} : Dict α → Int → Option α
  | [], _ => none
  | (k, v) :: rest, x => if k = x then some v else dictLookup rest x

/-- Python `k in d`. -/
def dictMem {α : Type} (d : Dict α) (x : Int) : Bool := (dictLookup d x).isSome

/-- Python `d[k] = v`: update the binding in place, or append a new one. -/
def dictSet {α : Type} : Dict α → Int → α → Dict α
  | [], x, v => [(x, v)]
  | (k, w) :: rest, x, v =>
    if k = x then (k, v) :: rest else (k, w) :: dictSet rest x v

/-- Deduplicate a flattened edge list by the visited-edge key, as both
backends' `get_edges` does with its `visited_edges` set. -/
def dedupeEdges (directed : Bool) :
    List (Int × Int × Weight) → List (Int × Int) → List (Int × Int × Weight)
  | [], _ => []
  | (u, v, w) :: rest, seen =>
    let k := if directed then (u, v) else (min u v, max u v)
    if k ∈ seen then dedupeEdges directed rest seen
    else (u, v, w) :: dedupeEdges directed rest (k :: seen)

/-!  The sparse backend: `AdjacencyList` from graph_representation.py.
`self.graph` is a defaultdict(list) from vertex to its (neighbor, weight)
entries, in insertion order. -/

structure AdjacencyList where
  directed : Bool
  weighted : Bool
  graph : Dict (List (Int × Weight))

namespace AdjacencyList

/-- `AdjacencyList.__init__`. -/
def empty (directed weighted : Bool) : AdjacencyList :=
  { directed := directed, weighted := weighted, graph := [] }

/-- `AdjacencyList.add_vertex`: no-op when present, else a fresh empty list. -/
def add_vertex (g : AdjacencyList) (v : Int) : AdjacencyList :=
  if dictMem g.graph v then g else { g with graph := g.graph ++ [(v, [])] }

/-- `self.graph[u].append(e)` on the defaultdict. -/
def adjAppend : Dict (List (Int × Weight)) → Int → Int × Weight →
    Dict (List (Int × Weight))
  | [], u, e => [(u, [e])]
  | (k, l) :: rest, u, e =>
    if k = u then (k, l ++ [e]) :: rest else (k, l) :: adjAppend rest u e

/-- `AdjacencyList.add_edge`: ensure both vertices, append `(v, w)` to `u`'s
list, and in the undirected case also `(u, w)` to `v`'s list.  Note the
source appends unconditionally: it never checks for an existing entry. -/
def add_edge (g : AdjacencyList) (u v : Int) (w : Weight) : AdjacencyList :=
  let g2 := (g.add_vertex u).add_vertex v
  let d1 := adjAppend g2.graph u (v, w)
  let d2 := if g2.directed then d1 else adjAppend d1 v (u, w)
  { g2 with graph := d2 }

/-- `AdjacencyList.remove_edge`: early return when `u` is absent; filter `v`
out of `u`'s list; in the undirected case, if `v` is present, filter `u`
out of `v`'s list. -/
def remove_edge (g : AdjacencyList) (u v : Int) : AdjacencyList :=
  if dictMem g.graph u then
    let l1 := ((dictLookup g.graph u).getD []).filter (fun p => p.1 ≠ v)
    let d1 := dictSet g.graph u l1
    let d2 :=
      if !g.directed && dictMem d1 v then
        dictSet d1 v (((dictLookup d1 v).getD []).filter (fun p => p.1 ≠ u))
      else d1
    { g with graph := d2 }
  else g

/-- `AdjacencyList.has_edge`. -/
def has_edge (g : AdjacencyList) (u v : Int) : Bool :=
  match dictLookup g.graph u with
  | none => false
  | some l => l.any (fun p => p.1 == v)

/-- `AdjacencyList.get_weight`: weight of the first matching entry. -/
def get_weight (g : AdjacencyList) (u v : Int) : Option Weight :=
  match dictLookup g.graph u with
  | none => none
  | some l => (l.find? (fun p => p.1 == v)).map (·.2)

/-- `AdjacencyList.get_neighbors`: `self.graph.get(vertex, [])`. -/
def get_neighbors (g : AdjacencyList) (v : Int) : List (Int × Weight) :=
  (dictLookup g.graph v).getD []

/-- `AdjacencyList.get_vertices`. -/
def get_vertices (g : AdjacencyList) : List Int := dictKeys g.graph

/-- `AdjacencyList.get_vertex_count`. -/
def get_vertex_count (g : AdjacencyList) : Nat := g.graph.length

/-- `AdjacencyList.get_edges`: each undirected edge reported once via the
`visited_edges` key set. -/
def get_edges (g : AdjacencyList) : List (Int × Int × Weight) :=
  dedupeEdges g.directed
    ((g.graph.map (fun p => p.2.map (fun q => (p.1, q.1, q.2)))).flatten) []

/-- `AdjacencyList.get_edge_count`. -/
def get_edge_count (g : AdjacencyList) : Nat := g.get_edges.length

end AdjacencyList

/-!  The dense backend: `AdjacencyMatrix` from graph_representation.py.
The Python `vertices` dict maps each vertex to its insertion index and
`index_to_vertex` is its inverse; a single insertion-ordered vertex list
carries the same information (the index of `v` is `List.indexOf v`). -/

/-- Read `matrix[i][j]`, `none` when out of range. -/
def mget (m : List (List (Option Weight))) (i j : Nat) : Option Weight :=
  ((m[i]?.getD [])[j]?).getD none

/-- Write `matrix[i][j] = w`. -/
def mset (m : List (List (Option Weight))) (i j : Nat) (w : Option Weight) :
    List (List (Option Weight)) :=
  m.set i ((m[i]?.getD []).set j w)

structure AdjacencyMatrix where
  directed : Bool
  weighted : Bool
  vertices : List Int
  matrix : List (List (Option Weight))

namespace AdjacencyMatrix

/-- `AdjacencyMatrix.__init__`. -/
def empty (directed weighted : Bool) : AdjacencyMatrix :=
  { directed := directed, weighted := weighted, vertices := [], matrix := [] }

/-- `AdjacencyMatrix.add_vertex`: no-op when present, else append the vertex
and rebuild an (n+1)-square matrix copying the old n-square block. -/
def add_vertex (g : AdjacencyMatrix) (v : Int) : AdjacencyMatrix :=
  if v ∈ g.vertices then g
  else
    let n := g.vertices.length
    { g with
      vertices := g.vertices ++ [v]
      matrix := (List.range (n + 1)).map (fun i =>
        (List.range (n + 1)).map (fun j =>
          if i < n ∧ j < n then mget g.matrix i j else none)) }

/-- `AdjacencyMatrix.add_edge`: ensure both vertices, then set the cell(s). -/
def add_edge (g : AdjacencyMatrix) (u v : Int) (w : Weight) : AdjacencyMatrix :=
  let g2 := (g.add_vertex u).add_vertex v
  let ui := List.indexOf u g2.vertices
  let vi := List.indexOf v g2.vertices
  let m1 := mset g2.matrix ui vi (some w)
  let m2 := if g2.directed then m1 else mset m1 vi ui (some w)
  { g2 with matrix := m2 }

/-- `AdjacencyMatrix.remove_edge`: early return when either vertex is
absent, else clear the cell(s). -/
def remove_edge (g : AdjacencyMatrix) (u v : Int) : AdjacencyMatrix :=
  if u ∈ g.vertices ∧ v ∈ g.vertices then
    let ui := List.indexOf u g.vertices
    let vi := List.indexOf v g.vertices
    let m1 := mset g.matrix ui vi none
    let m2 := if g.directed then m1 else mset m1 vi ui none
    { g with matrix := m2 }
  else g

/-- `AdjacencyMatrix.has_edge`. -/
def has_edge (g : AdjacencyMatrix) (u v : Int) : Bool :=
  decide (u ∈ g.vertices) && decide (v ∈ g.vertices) &&
    (mget g.matrix (List.indexOf u g.vertices) (List.indexOf v g.vertices)).isSome

/-- `AdjacencyMatrix.get_weight`. -/
def get_weight (g : AdjacencyMatrix) (u v : Int) : Option Weight :=
  if g.has_edge u v then
    mget g.matrix (List.indexOf u g.vertices) (List.indexOf v g.vertices)
  else none

/-- `AdjacencyMatrix.get_neighbors`: scan the row in index order. -/
def get_neighbors (g : AdjacencyMatrix) (v : Int) : List (Int × Weight) :=
  if v ∈ g.vertices then
    let vi := List.indexOf v g.vertices
    (List.range g.vertices.length).filterMap (fun i =>
      (mget g.matrix vi i).map (fun w => (g.vertices.getD i 0, w)))
  else []

/-- `AdjacencyMatrix.get_vertices`. -/
def get_vertices (g : AdjacencyMatrix) : List Int := g.vertices

/-- `AdjacencyMatrix.get_vertex_count`. -/
def get_vertex_count (g : AdjacencyMatrix) : Nat := g.vertices.length

/-- `AdjacencyMatrix.get_edges`. -/
def get_edges (g : AdjacencyMatrix) : List (Int × Int × Weight) :=
  dedupeEdges g.directed
    ((g.vertices.map (fun u =>
      (List.range g.vertices.length).filterMap (fun i =>
        (mget g.matrix (List.indexOf u g.vertices) i).map
          (fun w => (u, g.vertices.getD i 0, w))))).flatten) []

/-- `AdjacencyMatrix.get_edge_count`. -/
def get_edge_count (g : AdjacencyMatrix) : Nat := g.get_edges.length

end AdjacencyMatrix

/-- A mutation of a graph store, for claims quantifying over operation
sequences. -/
inductive Op where
  | addVertex (v : Int)
  | addEdge (u v : Int) (w : Weight)
  | removeEdge (u v : Int)

/-- Apply one operation to the sparse backend. -/
def AdjacencyList.applyOp (g : AdjacencyList) : Op → AdjacencyList
  | .addVertex v => g.add_vertex v
  | .addEdge u v w => g.add_edge u v w
  | .removeEdge u v => g.remove_edge u v

/-- Apply a sequence of operations to the sparse backend. -/
def AdjacencyList.runOps (g : AdjacencyList) (ops : List Op) : AdjacencyList :=
  ops.foldl AdjacencyList.applyOp g

/-- Apply one operation to the dense backend. -/
def AdjacencyMatrix.applyOp (g : AdjacencyMatrix) : Op → AdjacencyMatrix
  | .addVertex v => g.add_vertex v
  | .addEdge u v w => g.add_edge u v w
  | .removeEdge u v => g.remove_edge u v

/-- Apply a sequence of operations to the dense backend. -/
def AdjacencyMatrix.runOps (g : AdjacencyMatrix) (ops : List Op) :
    AdjacencyMatrix :=
  ops.foldl AdjacencyMatrix.applyOp g

/-- Errors a modelled Python fragment can raise. -/
inductive PyErr where
  | keyError
  | valueError
deriving DecidableEq

/-- Total degree sum of the sparse store, used to size loop fuel. -/
def AdjacencyList.degreeSum (g : AdjacencyList) : Nat :=
  (g.graph.map (fun p => p.2.length)).sum

/-!  GraphTraversal.bfs from graph_traversal.py.  The queue is a deque
(pop from the front, append at the back); distances and parents are dicts;
visited is a set. -/

namespace GraphTraversal

/-- Inner neighbor scan of one BFS iteration: for each unvisited neighbor,
record distance and parent, mark visited, enqueue. -/
def bfsScan (current : Int) (cd : Nat) :
    List (Int × Weight) → Dict Nat → Dict (Option Int) → List Int → List Int →
    Dict Nat × Dict (Option Int) × List Int × List Int
  | [], dist, par, queue, visited => (dist, par, queue, visited)
  | (n, _) :: rest, dist, par, queue, visited =>
    if n ∈ visited then bfsScan current cd rest dist par queue visited
    else
      bfsScan current cd rest (dictSet dist n (cd + 1))
        (dictSet par n (some current)) (queue ++ [n]) (n :: visited)

/-- The `while queue:` loop of bfs; `distances[current]` is a dict read and
can in principle raise KeyError. -/
def bfsLoop (g : AdjacencyList) :
    Nat → List Int → Dict Nat → Dict (Option Int) → List Int →
    Except PyErr (Dict Nat × Dict (Option Int))
  | 0, _, dist, par, _ => .ok (dist, par)
  | _ + 1, [], dist, par, _ => .ok (dist, par)
  | fuel + 1, current :: queue, dist, par, visited =>
    match dictLookup dist current with
    | none => .error .keyError
    | some cd =>
      let s := bfsScan current cd (g.get_neighbors current) dist par queue visited
      bfsLoop g fuel s.2.2.1 s.1 s.2.1 s.2.2.2

/-- Fuel for the BFS loop: one unit per dequeue; every enqueued vertex is
freshly visited and comes from some adjacency entry, so the queue sees at
most 1 + degree-sum elements in total. -/
def bfsFuel (g : AdjacencyList) : Nat := 2 + g.graph.length + g.degreeSum

/-- `GraphTraversal.bfs(graph, start)`. -/
def bfs (g : AdjacencyList) (start : Int) :
    Except PyErr (Dict Nat × Dict (Option Int)) :=
  bfsLoop g (bfsFuel g) [start] [(start, 0)] [(start, none)] [start]

/-- The `while current is not None:` path-reconstruction loop shared by
bfs_path (and, in shortest_path.py, dijkstra_path): walk the parents map
backward accumulating vertices, then reverse. -/
def reconPath (par : Dict (Option Int)) :
    Nat → Option Int → List Int → Except PyErr (List Int)
  | 0, _, acc => .ok acc.reverse
  | _ + 1, none, acc => .ok acc.reverse
  | fuel + 1, some v, acc =>
    match dictLookup par v with
    | none => .error .keyError
    | some pv => reconPath par fuel pv (acc ++ [v])

/-- `GraphTraversal.bfs_path(graph, start, end)`: absent end vertex gives
None; otherwise the path is rebuilt from the parents map (the parent chain
shortens the BFS distance at every step, so distance + 2 steps suffice). -/
def bfs_path (g : AdjacencyList) (start endv : Int) :
    Except PyErr (Option (List Int)) :=
  match bfs g start with
  | .error e => .error e
  | .ok (dist, par) =>
    match dictLookup dist endv with
    | none => .ok none
    | some d => (reconPath par (d + 2) (some endv) []).map (fun p => some p)

end GraphTraversal

/-!  ShortestPath.dijkstra from shortest_path.py.  The heapq priority queue
is modelled as a plain list whose pop extracts the lexicographically least
(distance, vertex) pair, exactly what heappop returns; heappush appends. -/

namespace ShortestPath

/-- Lexicographic comparison of heap entries, as Python tuple comparison. -/
def pqLe (a b : ℚ × Int) : Bool :=
  decide (a.1 < b.1) || (a.1 == b.1 && decide (a.2 ≤ b.2))

/-- Least element of the priority queue (first of the minimal entries). -/
def pqMin : List (ℚ × Int) → Option (ℚ × Int)
  | [] => none
  | x :: rest =>
    match pqMin rest with
    | none => some x
    | some y => if pqLe x y then some x else some y

/-- `heapq.heappop`: remove and return the least entry. -/
def heappop (pq : List (ℚ × Int)) : Option ((ℚ × Int) × List (ℚ × Int)) :=
  match pqMin pq with
  | none => none
  | some m => some (m, pq.erase m)

/-- Strict comparison of a finite tentative distance against a stored
distance, where `none` stands for float(+inf). -/
def ltInf (x : ℚ) : Option ℚ → Bool
  | none => true
  | some y => decide (x < y)

/-- Relaxation scan over the popped vertex's neighbors. -/
def dijkstraScan (current : Int) (cd : ℚ) :
    List (Int × Weight) → Dict (Option ℚ) → Dict (Option Int) →
    List (ℚ × Int) → List Int →
    Except PyErr (Dict (Option ℚ) × Dict (Option Int) × List (ℚ × Int))
  | [], dist, par, pq, _ => .ok (dist, par, pq)
  | (n, w) :: rest, dist, par, pq, visited =>
    if n ∈ visited then dijkstraScan current cd rest dist par pq visited
    else
      match dictLookup dist n with
      | none => .error .keyError
      | some dn =>
        let nd := cd + w
        if ltInf nd dn then
          dijkstraScan current cd rest (dictSet dist n (some nd))
            (dictSet par n (some current)) (pq ++ [(nd, n)]) visited
        else dijkstraScan current cd rest dist par pq visited

/-- The `while pq:` loop of dijkstra; a popped, already-final vertex is
skipped, otherwise it is finalized and its neighbors relaxed. -/
def dijkstraLoop (g : AdjacencyList) :
    Nat → List (ℚ × Int) → Dict (Option ℚ) → Dict (Option Int) → List Int →
    Except PyErr (Dict (Option ℚ) × Dict (Option Int))
  | 0, _, dist, par, _ => .ok (dist, par)
  | fuel + 1, pq, dist, par, visited =>
    match heappop pq with
    | none => .ok (dist, par)
    | some ((cd, current), pq2) =>
      if current ∈ visited then dijkstraLoop g fuel pq2 dist par visited
      else
        match dijkstraScan current cd (g.get_neighbors current) dist par pq2
            (current :: visited) with
        | .error e => .error e
        | .ok (dist2, par2, pq3) =>
          dijkstraLoop g fuel pq3 dist2 par2 (current :: visited)

/-- Fuel for the dijkstra loop: every iteration pops one entry, and at most
1 + degree-sum entries are ever pushed. -/
def dijkstraFuel (g : AdjacencyList) : Nat := 2 + g.graph.length + g.degreeSum

/-- `ShortestPath.dijkstra(graph, start)`: distances pre-seeded to +inf for
every vertex, then `distances[start] = 0.0` (a dict write that updates the
binding or appends a new key). -/
def dijkstra (g : AdjacencyList) (start : Int) :
    Except PyErr (Dict (Option ℚ) × Dict (Option Int)) :=
  let dist0 := dictSet (g.get_vertices.map (fun v => (v, (none : Option ℚ))))
    start (some 0)
  let par0 := g.get_vertices.map (fun v => (v, (none : Option Int)))
  dijkstraLoop g (dijkstraFuel g) [(0, start)] dist0 par0 []

/-- `ShortestPath.dijkstra_path(graph, start, end)`: reads `distances[end]`
unconditionally — a KeyError when `end` is not a key — and returns None
only when that distance is +inf. -/
def dijkstra_path (g : AdjacencyList) (start endv : Int) :
    Except PyErr (Option (List Int × ℚ)) :=
  match dijkstra g start with
  | .error e => .error e
  | .ok (dist, par) =>
    match dictLookup dist endv with
    | none => .error .keyError
    | some none => .ok none
    | some (some d) =>
      (GraphTraversal.reconPath par ((dictKeys par).length + 2) (some endv)
        []).map (fun p => some (p, d))

end ShortestPath

/-!  TopologicalSort from shortest_path.py: Kahn's algorithm and the
DFS-based variant, both rejecting undirected graphs with a ValueError. -/

namespace TopologicalSort

/-- The in-degree accumulation scan: `in_degree[v] = in_degree.get(v,0)+1`
over every adjacency entry, in dict order. -/
def bumpAll : Dict Int → List Int → Dict Int
  | d, [] => d
  | d, v :: rest => bumpAll (dictSet d v ((dictLookup d v).getD 0 + 1)) rest

/-- The in-degree dict: every vertex starts at zero, then one bump per
adjacency entry. -/
def inDegrees (g : AdjacencyList) : Dict Int :=
  bumpAll (g.get_vertices.map (fun v => (v, (0 : Int))))
    ((g.get_vertices.map (fun u => (g.get_neighbors u).map (·.1))).flatten)

/-- Decrement scan over the dequeued vertex's neighbors; newly zero
in-degrees are appended to the queue. -/
def kahnScan :
    List (Int × Weight) → Dict Int → List Int →
    Except PyErr (Dict Int × List Int)
  | [], indeg, queue => .ok (indeg, queue)
  | (n, _) :: rest, indeg, queue =>
    match dictLookup indeg n with
    | none => .error .keyError
    | some d =>
      let indeg2 := dictSet indeg n (d - 1)
      if d - 1 = 0 then kahnScan rest indeg2 (queue ++ [n])
      else kahnScan rest indeg2 queue

/-- The `while queue:` loop of Kahn's algorithm. -/
def kahnLoop (g : AdjacencyList) :
    Nat → List Int → Dict Int → List Int → Except PyErr (List Int)
  | 0, _, _, result => .ok result
  | _ + 1, [], _, result => .ok result
  | fuel + 1, current :: queue, indeg, result =>
    match kahnScan (g.get_neighbors current) indeg queue with
    | .error e => .error e
    | .ok (indeg2, queue2) =>
      kahnLoop g fuel queue2 indeg2 (result ++ [current])

/-- `TopologicalSort.topological_sort(graph)` (Kahn): ValueError on an
undirected store; None when the result misses some vertex (a cycle). -/
def topological_sort (g : AdjacencyList) : Except PyErr (Option (List Int)) :=
  if g.directed then
    let indeg := inDegrees g
    let queue0 := (indeg.filter (fun p => p.2 = 0)).map (·.1)
    match kahnLoop g (2 + g.graph.length + g.degreeSum) queue0 indeg [] with
    | .error e => .error e
    | .ok result =>
      .ok (if result.length ≠ g.get_vertices.length then none else some result)
  else .error .valueError

/-- State of the DFS-based sort: visited set, current recursion path,
post-order result list. -/
structure TopoSt where
  visited : List Int
  recStack : List Int
  result : List Int

/-- The `for neighbor in get_neighbors(vertex)` loop inside `dfs`, with
early False propagation; `f` is the recursive visit at the next smaller
fuel. -/
def topoDfsList (f : Int → TopoSt → Bool × TopoSt) :
    List (Int × Weight) → TopoSt → Bool × TopoSt
  | [], st => (true, st)
  | (n, _) :: rest, st =>
    match f n st with
    | (false, st2) => (false, st2)
    | (true, st2) => topoDfsList f rest st2

/-- The inner `dfs(vertex)` closure of topological_sort_dfs: False on a
back edge, otherwise explore, pop the recursion path, append post-order. -/
def topoDfsVisit (g : AdjacencyList) : Nat → Int → TopoSt → Bool × TopoSt
  | 0, _, st => (false, st)
  | fuel + 1, v, st =>
    if v ∈ st.recStack then (false, st)
    else if v ∈ st.visited then (true, st)
    else
      match topoDfsList (fun n s => topoDfsVisit g fuel n s)
          (g.get_neighbors v) ⟨v :: st.visited, v :: st.recStack, st.result⟩ with
      | (false, st2) => (false, st2)
      | (true, st2) =>
        (true, ⟨st2.visited, st2.recStack.erase v, st2.result ++ [v]⟩)

/-- The outer `for vertex in get_vertices()` loop of topological_sort_dfs;
None as soon as a cycle is found. -/
def topoDfsOuter (g : AdjacencyList) (fuel : Nat) :
    List Int → TopoSt → Option TopoSt
  | [], st => some st
  | v :: rest, st =>
    if v ∈ st.visited then topoDfsOuter g fuel rest st
    else
      match topoDfsVisit g fuel v st with
      | (false, _) => none
      | (true, st2) => topoDfsOuter g fuel rest st2

/-- `TopologicalSort.topological_sort_dfs(graph)`: ValueError on an
undirected store; the reversed post-order otherwise (recursion depth is
bounded by the vertex count plus one on closed graphs). -/
def topological_sort_dfs (g : AdjacencyList) :
    Except PyErr (Option (List Int)) :=
  if g.directed then
    match topoDfsOuter g (g.graph.length + 2) g.get_vertices ⟨[], [], []⟩ with
    | none => .ok none
    | some st => .ok (some st.result.reverse)
  else .error .valueError

end TopologicalSort

/-!  GraphTraversal.dfs_recursive / dfs_iterative from graph_traversal.py
and Connectivity from shortest_path.py.  Python's `stack.pop()` removes
the LAST element, so with the stack modelled head-first a block of pushes
shows up at the head with the LAST push first: `dfs_iterative` pushes
`reversed(neighbors)` (each one filtered against the visited set), which
leaves the filtered neighbor list at the head in enumeration order, while
`Connectivity._dfs_component` pushes forward, leaving the REVERSED
filtered list at the head.  Both while-loops get fuel recursion. -/

namespace GraphTraversal

/-- The `while stack:` loop shared by dfs_iterative (`ord := id`) and
Connectivity._dfs_component (`ord := List.reverse`): pop the head, skip it
when visited, else mark it, emit it, and push its unvisited neighbors. -/
def iterDFS (nbrs : Int → List (Int × Weight)) (ord : List Int → List Int) :
    Nat → List Int → List Int → List Int × List Int
  | 0, _, vis => ([], vis)
  | _ + 1, [], vis => ([], vis)
  | fuel + 1, x :: st, vis =>
    if x ∈ vis then iterDFS nbrs ord fuel st vis
    else
      let r := iterDFS nbrs ord fuel
        (ord (((nbrs x).map (·.1)).filter (fun y => y ∉ x :: vis)) ++ st)
        (x :: vis)
      (x :: r.1, r.2)

/-- The `for neighbor, _ in graph.get_neighbors(start):` loop of
dfs_recursive, with the recursive call abstracted as `f`; Python threads
one shared, mutated visited set through all calls. -/
def recDFSList (f : Int → List Int → List Int × List Int) :
    List Int → List Int → List Int × List Int
  | [], vis => ([], vis)
  | y :: ys, vis =>
    if y ∈ vis then recDFSList f ys vis
    else
      let r1 := f y vis
      let r2 := recDFSList f ys r1.2
      (r1.1 ++ r2.1, r2.2)

/-- `GraphTraversal.dfs_recursive`: mark the start visited, emit it, then
recurse into each not-yet-visited neighbor in enumeration order. -/
def recDFS (nbrs : Int → List (Int × Weight)) :
    Nat → Int → List Int → List Int × List Int
  | 0, _, vis => ([], vis)
  | fuel + 1, x, vis =>
    let r := recDFSList (fun y v => recDFS nbrs fuel y v)
      ((nbrs x).map (·.1)) (x :: vis)
    (x :: r.1, r.2)

/-- Every vertex a depth-first traversal from `s` can touch: the start,
the stored vertices, and every vertex mentioned as a neighbor (the last
group matters only for stores whose adjacency lists mention unknown
vertices). -/
def dfsUniv (g : AdjacencyList) (s : Int) : List Int :=
  s :: g.get_vertices ++ (g.graph.map (fun p => p.2.map (·.1))).flatten

/-- Fuel for the depth-first traversals: each pop of an unvisited vertex
`v` costs one step and pushes at most `deg v` entries, each vertex is
serviced that way at most once, and the slack covers the initial stack
entry. -/
def dfsFuel (g : AdjacencyList) (s : Int) : Nat :=
  2 + (((dfsUniv g s).map
    (fun v => 1 + (g.get_neighbors v).length)).sum)

/-- `GraphTraversal.dfs_iterative(graph, start)`. -/
def dfs_iterative (g : AdjacencyList) (s : Int) : List Int :=
  (iterDFS g.get_neighbors id (dfsFuel g s) [s] []).1

/-- `GraphTraversal.dfs_recursive(graph, start)`, outer call: the default
`visited = None` allocates a fresh empty set. -/
def dfs_recursive (g : AdjacencyList) (s : Int) : List Int :=
  (recDFS g.get_neighbors (dfsFuel g s) s []).1

end GraphTraversal

namespace Connectivity

/-- `Connectivity._dfs_component(graph, start, visited)`: the pop-and-push
loop with forward pushes, sharing the caller's visited set. -/
def dfs_component (g : AdjacencyList) (fuel : Nat) (start : Int)
    (vis : List Int) : List Int × List Int :=
  GraphTraversal.iterDFS g.get_neighbors List.reverse fuel [start] vis

/-- The `for vertex in graph.get_vertices():` loop of
find_connected_components: one component per not-yet-visited vertex. -/
def fccLoop (g : AdjacencyList) : List Int → List Int → List (List Int)
  | [], _ => []
  | v :: rest, vis =>
    if v ∈ vis then fccLoop g rest vis
    else
      let r := dfs_component g (GraphTraversal.dfsFuel g v) v vis
      r.1 :: fccLoop g rest r.2

/-- `Connectivity.find_connected_components(graph)`. -/
def find_connected_components (g : AdjacencyList) : List (List Int) :=
  fccLoop g g.get_vertices []

/-- `Connectivity.is_connected(graph)`: an empty vertex list is connected,
otherwise connectivity means exactly one component. -/
def is_connected (g : AdjacencyList) : Bool :=
  if g.get_vertices = [] then true
  else (find_connected_components g).length == 1

end Connectivity

/-!  Proof-layer notions for the store invariants. -/

/-- Weight sequence of the `v`-entries in `u`'s adjacency list, in list
order; the sparse store's has_edge and get_weight are determined by it. -/
def wseqD (d : Dict (List (Int × Weight))) (u v : Int) : List Weight :=
  (((dictLookup d u).getD []).filter (fun p => p.1 == v)).map (·.2)

/-- Mirror-symmetry of a sparse store: `u`'s list holds the same weights
toward `v`, in the same order, as `v`'s list toward `u`. -/
def SymAdj (g : AdjacencyList) : Prop :=
  ∀ u v, wseqD g.graph u v = wseqD g.graph v u

/-- Well-formedness of the dense store: the matrix is square of the vertex
count. -/
def MatWF (g : AdjacencyMatrix) : Prop :=
  g.matrix.length = g.vertices.length ∧
    ∀ r ∈ g.matrix, r.length = g.vertices.length

/-- Cell-level symmetry of the dense store's matrix. -/
def MatSym (g : AdjacencyMatrix) : Prop :=
  ∀ i j, mget g.matrix i j = mget g.matrix j i

/-- Closedness of a sparse store: every neighbor mentioned in an adjacency
list is itself a key of the store.  Stores built through add_vertex and
add_edge always satisfy it. -/
def Closed (g : AdjacencyList) : Prop :=
  ∀ p ∈ g.graph, ∀ q ∈ p.2, dictMem g.graph q.1 = true

/-- Remaining measure of the iterative DFS loop relative to a universe
list of vertices: the pending stack entries plus, for each unvisited
universe entry, one servicing pop and its possible pushes. -/
def measDFS (nbrs : Int → List (Int × Weight)) (univ vis st : List Int) :
    Nat :=
  st.length +
    (((univ.filter (fun v => v ∉ vis)).map
      (fun v => 1 + (nbrs v).length)).sum)

/-- Universe entries not yet visited, with multiplicity; it bounds the
recursion depth of dfs_recursive. -/
def unvisLen (univ vis : List Int) : Nat :=
  (univ.filter (fun v => v ∉ vis)).length

/-- Neighbor-closedness of a universe list under a neighbor function. -/
def UnivClosed (nbrs : Int → List (Int × Weight)) (univ : List Int) :
    Prop :=
  ∀ v ∈ univ, ∀ q ∈ nbrs v, q.1 ∈ univ

/-- Invariant of the BFS loop state: distances and parents share their key
list, the visited set is exactly the distance keys, the start is its own
rootless parent and the only rootless vertex, and every recorded parent
link decreases the recorded distance by exactly one. -/
def BfsInv (s : Int) (dist : Dict Nat) (par : Dict (Option Int))
    (vis : List Int) : Prop :=
  dictKeys dist = dictKeys par ∧
  (∀ x, dictMem dist x = true ↔ x ∈ vis) ∧
  dictLookup par s = some none ∧
  (∀ x, dictLookup par x = some none → x = s) ∧
  (∀ x v, dictLookup par x = some (some v) →
    ∃ dv du, dictLookup dist x = some dv ∧ dictLookup dist v = some du ∧
      dv = du + 1)

/-- Provenance of BFS distance keys: every visited vertex is the start or
appears as a neighbor entry somewhere in the store. -/
def BfsProv (g : AdjacencyList) (s : Int) (dist : Dict Nat) : Prop :=
  ∀ x, dictMem dist x = true → x = s ∨ ∃ p ∈ g.graph, ∃ e ∈ p.2, e.1 = x

/-- The reference weighted undirected graph of the shortest-path test
property (§8). -/
def dijkstraTestGraph : AdjacencyList :=
  (AdjacencyList.empty false true).runOps
    [.addEdge 1 2 2, .addEdge 2 3 3, .addEdge 1 4 1, .addEdge 2 5 4,
     .addEdge 4 5 1]

/-- The connectivity test graph of §8: undirected edges
{(1,2),(2,3),(4,5)} plus the isolated vertex 6. -/
def connTestGraph : AdjacencyList :=
  (AdjacencyList.empty false false).runOps
    [.addEdge 1 2 1, .addEdge 2 3 1, .addEdge 4 5 1, .addVertex 6]

/-- The directed acyclic test graph 1→2, 1→3, 2→4, 3→4. -/
def topoTestDag : AdjacencyList :=
  (AdjacencyList.empty true false).runOps
    [.addEdge 1 2 1, .addEdge 1 3 1, .addEdge 2 4 1, .addEdge 3 4 1]

/-- The directed cyclic test graph 1→2, 2→3, 3→1. -/
def topoTestCycle : AdjacencyList :=
  (AdjacencyList.empty true false).runOps
    [.addEdge 1 2 1, .addEdge 2 3 1, .addEdge 3 1 1]

/-- Claim C1: the backends diverge on the operation sequence
add_edge(1,2,3.0); add_edge(1,2,7.0): the dense store reports weight 7
while the sparse store reports weight 3 (the first of two accumulated
entries), so get_weight and hence backend equivalence fails there. -/
theorem c1_backend_divergence_on_duplicate_add :
    (((AdjacencyMatrix.empty false true).runOps
        [.addEdge 1 2 3, .addEdge 1 2 7]).get_weight 1 2 = some 7) ∧
    (((AdjacencyList.empty false true).runOps
        [.addEdge 1 2 3, .addEdge 1 2 7]).get_weight 1 2 = some 3) ∧
    (((AdjacencyMatrix.empty false true).runOps
        [.addEdge 1 2 3, .addEdge 1 2 7]).get_weight 1 2 ≠
      ((AdjacencyList.empty false true).runOps
        [.addEdge 1 2 3, .addEdge 1 2 7]).get_weight 1 2) := by
  refine ⟨by decide, by decide, by decide⟩

/-- Claim C2: on the sparse backend, add_edge(1,2,3.0) then add_edge(1,2,7.0)
does not overwrite: get_weight(1,2) returns 3 (the first entry), the
adjacency list of vertex 1 holds two entries for neighbor 2, and
get_edge_count() is 1; the dense backend does overwrite to 7. -/
theorem c2_sparse_add_edge_does_not_overwrite :
    (((AdjacencyList.empty false true).runOps
        [.addEdge 1 2 3, .addEdge 1 2 7]).get_weight 1 2 = some 3) ∧
    (((AdjacencyList.empty false true).runOps
        [.addEdge 1 2 3, .addEdge 1 2 7]).get_neighbors 1 =
      [(2, 3), (2, 7)]) ∧
    (((AdjacencyList.empty false true).runOps
        [.addEdge 1 2 3, .addEdge 1 2 7]).get_edge_count = 1) ∧
    (((AdjacencyMatrix.empty false true).runOps
        [.addEdge 1 2 3, .addEdge 1 2 7]).get_weight 1 2 = some 7) ∧
    (((AdjacencyMatrix.empty false true).runOps
        [.addEdge 1 2 3, .addEdge 1 2 7]).get_edge_count = 1) := by
  refine ⟨by decide, by decide, by decide, by decide, by decide⟩

/-- Claim C4: on the reference graph, dijkstra from 1 yields exactly the
distance map 1 to 0, 2 to 2, 3 to 5, 4 to 1, 5 to 2, and dijkstra_path
from 1 to 5 yields the path [1,4,5] with total distance 2. -/
theorem c4_dijkstra_reference_graph :
    (∃ d p, ShortestPath.dijkstra dijkstraTestGraph 1 = .ok (d, p) ∧
      dictKeys d = [1, 2, 3, 4, 5] ∧
      dictLookup d 1 = some (some 0) ∧
      dictLookup d 2 = some (some 2) ∧
      dictLookup d 3 = some (some 5) ∧
      dictLookup d 4 = some (some 1) ∧
      dictLookup d 5 = some (some 2)) ∧
    ShortestPath.dijkstra_path dijkstraTestGraph 1 5 = .ok (some ([1, 4, 5], 2)) := by
  refine ⟨⟨[(1, some 0), (2, some 2), (3, some 5), (4, some 1), (5, some 2)],
    [(1, none), (2, some 1), (3, some 2), (4, some 1), (5, some 4)],
    ?_, by decide, by decide, by decide, by decide, by decide, by decide⟩, ?_⟩
  · norm_num [ShortestPath.dijkstra, ShortestPath.dijkstraLoop,
      ShortestPath.dijkstraScan, ShortestPath.heappop, ShortestPath.pqMin,
      ShortestPath.pqLe, ShortestPath.ltInf, ShortestPath.dijkstraFuel,
      dijkstraTestGraph, AdjacencyList.runOps, AdjacencyList.applyOp,
      AdjacencyList.add_edge, AdjacencyList.add_vertex,
      AdjacencyList.adjAppend, AdjacencyList.empty,
      AdjacencyList.get_neighbors, AdjacencyList.get_vertices,
      AdjacencyList.degreeSum, dictSet, dictLookup, dictMem, dictKeys,
      List.erase]
  · norm_num [ShortestPath.dijkstra_path, ShortestPath.dijkstra,
      ShortestPath.dijkstraLoop, ShortestPath.dijkstraScan,
      ShortestPath.heappop, ShortestPath.pqMin, ShortestPath.pqLe,
      ShortestPath.ltInf, ShortestPath.dijkstraFuel,
      GraphTraversal.reconPath, dijkstraTestGraph, AdjacencyList.runOps,
      AdjacencyList.applyOp, AdjacencyList.add_edge, AdjacencyList.add_vertex,
      AdjacencyList.adjAppend, AdjacencyList.empty,
      AdjacencyList.get_neighbors, AdjacencyList.get_vertices,
      AdjacencyList.degreeSum, dictSet, dictLookup, dictMem, dictKeys,
      List.erase, Except.map]

/-- Claim C5: on the DAG 1→2, 1→3, 2→4, 3→4 both sort variants return a
permutation of {1,2,3,4} respecting every edge precedence, and on the
cycle 1→2, 2→3, 3→1 both return the absent no-ordering result. -/
theorem c5_topological_sort_dag_and_cycle :
    (∃ l₁ l₂,
      TopologicalSort.topological_sort topoTestDag = .ok (some l₁) ∧
      TopologicalSort.topological_sort_dfs topoTestDag = .ok (some l₂) ∧
      ∀ l ∈ [l₁, l₂], l.Perm [1, 2, 3, 4] ∧
        List.indexOf 1 l < List.indexOf 2 l ∧
        List.indexOf 1 l < List.indexOf 3 l ∧
        List.indexOf 2 l < List.indexOf 4 l ∧
        List.indexOf 3 l < List.indexOf 4 l) ∧
    TopologicalSort.topological_sort topoTestCycle = .ok none ∧
    TopologicalSort.topological_sort_dfs topoTestCycle = .ok none := by
  refine ⟨⟨[1, 2, 3, 4], [1, 3, 2, 4], rfl, rfl, by decide⟩, rfl, rfl⟩

/-- Claim C6: both topological sort variants signal the explicit
invalid-operation error on any store whose directed flag is false. -/
theorem c6_topological_sort_rejects_undirected (g : AdjacencyList)
    (h : g.directed = false) :
    TopologicalSort.topological_sort g = .error .valueError ∧
    TopologicalSort.topological_sort_dfs g = .error .valueError := by
  constructor
  · unfold TopologicalSort.topological_sort
    rw [h]
    simp
  · unfold TopologicalSort.topological_sort_dfs
    rw [h]
    simp

/-!  Dictionary lemmas. -/

theorem dictLookup_append {α : Type} (d e : Dict α) (x : Int) :
    dictLookup (d ++ e) x =
      match dictLookup d x with
      | some v => some v
      | none => dictLookup e x := by
  induction d with
  | nil => simp [dictLookup]
  | cons p rest ih =>
    obtain ⟨k, v⟩ := p
    by_cases h : k = x <;> simp [dictLookup, h, ih]

theorem dictLookup_set {α : Type} (d : Dict α) (x : Int) (v : α) (y : Int) :
    dictLookup (dictSet d x v) y = if y = x then some v else dictLookup d y := by
  induction d with
  | nil =>
    by_cases h : y = x
    · simp [dictSet, dictLookup, h]
    · have h2 : ¬x = y := fun hh => h hh.symm
      simp [dictSet, dictLookup, h, h2]
  | cons p rest ih =>
    obtain ⟨k, w⟩ := p
    by_cases hk : k = x
    · subst hk
      by_cases hy : y = k
      · simp [dictSet, dictLookup, hy]
      · have h2 : ¬k = y := fun hh => hy hh.symm
        simp [dictSet, dictLookup, hy, h2]
    · by_cases hy : k = y
      · subst hy
        simp [dictSet, dictLookup, hk]
      · simp [dictSet, dictLookup, hk, hy, ih]

theorem dictMem_set {α : Type} (d : Dict α) (x : Int) (v : α) (y : Int) :
    dictMem (dictSet d x v) y = (decide (y = x) || dictMem d y) := by
  rw [dictMem, dictLookup_set]
  by_cases h : y = x <;> simp [h, dictMem]

theorem adjAppend_lookup (d : Dict (List (Int × Weight))) (x : Int)
    (e : Int × Weight) (y : Int) :
    dictLookup (AdjacencyList.adjAppend d x e) y =
      if y = x then some (((dictLookup d x).getD []) ++ [e])
      else dictLookup d y := by
  induction d with
  | nil =>
    by_cases h : y = x
    · simp [AdjacencyList.adjAppend, dictLookup, h]
    · have h2 : ¬x = y := fun hh => h hh.symm
      simp [AdjacencyList.adjAppend, dictLookup, h, h2]
  | cons p rest ih =>
    obtain ⟨k, l⟩ := p
    by_cases hk : k = x
    · subst hk
      by_cases hy : y = k
      · simp [AdjacencyList.adjAppend, dictLookup, hy]
      · have h2 : ¬k = y := fun hh => hy hh.symm
        simp [AdjacencyList.adjAppend, dictLookup, hy, h2]
    · by_cases hy : k = y
      · subst hy
        simp [AdjacencyList.adjAppend, dictLookup, hk]
      · simp [AdjacencyList.adjAppend, dictLookup, hk, hy, ih]

/-!  Sparse-store symmetry lemmas. -/

theorem wseqD_adjAppend (d : Dict (List (Int × Weight))) (x : Int)
    (e : Int × Weight) (u v : Int) :
    wseqD (AdjacencyList.adjAppend d x e) u v =
      if u = x then wseqD d u v ++ (if e.1 = v then [e.2] else [])
      else wseqD d u v := by
  unfold wseqD
  rw [adjAppend_lookup]
  by_cases h : u = x
  · by_cases hv : e.1 = v <;>
      simp [h, hv, List.filter_append]
  · simp [h]

theorem wseqD_dictSet (d : Dict (List (Int × Weight))) (x : Int)
    (l : List (Int × Weight)) (u v : Int) :
    wseqD (dictSet d x l) u v =
      if u = x then (l.filter (fun p => p.1 == v)).map (·.2)
      else wseqD d u v := by
  unfold wseqD
  rw [dictLookup_set]
  by_cases h : u = x <;> simp [h]

theorem listAny_eq_not_isEmpty (l : List (Int × Weight)) (v : Int) :
    (l.any fun p => p.1 == v) =
      !((l.filter fun p => p.1 == v).map (·.2)).isEmpty := by
  induction l with
  | nil => simp
  | cons p rest ih =>
    by_cases hp : p.1 == v <;> simp [List.any_cons, List.filter_cons, hp, ih]

theorem listFind_eq_filter_head (l : List (Int × Weight)) (v : Int) :
    (l.find? fun p => p.1 == v).map (·.2) =
      ((l.filter fun p => p.1 == v).map (·.2)).head? := by
  induction l with
  | nil => simp
  | cons p rest ih =>
    by_cases hp : (p.1 == v) = true
    · rw [List.find?_cons_of_pos (p := fun q : Int × Weight => q.1 == v) rest hp,
        List.filter_cons_of_pos (p := fun q : Int × Weight => q.1 == v) hp]
      simp
    · rw [List.find?_cons_of_neg (p := fun q : Int × Weight => q.1 == v) rest hp,
        List.filter_cons_of_neg (p := fun q : Int × Weight => q.1 == v) hp]
      exact ih

theorem hasEdge_eq_wseqD (g : AdjacencyList) (u v : Int) :
    g.has_edge u v = !(wseqD g.graph u v).isEmpty := by
  unfold AdjacencyList.has_edge wseqD
  cases h : dictLookup g.graph u with
  | none => simp
  | some l =>
    simp only [Option.getD_some]
    exact listAny_eq_not_isEmpty l v

theorem getWeight_eq_wseqD (g : AdjacencyList) (u v : Int) :
    g.get_weight u v = (wseqD g.graph u v).head? := by
  unfold AdjacencyList.get_weight wseqD
  cases h : dictLookup g.graph u with
  | none => simp
  | some l =>
    simp only [Option.getD_some]
    exact listFind_eq_filter_head l v

theorem wseqD_add_vertex (g : AdjacencyList) (x u v : Int) :
    wseqD (g.add_vertex x).graph u v = wseqD g.graph u v := by
  unfold AdjacencyList.add_vertex
  by_cases hm : dictMem g.graph x
  · simp [hm]
  · simp only [hm, Bool.false_eq_true, if_false]
    unfold wseqD
    rw [dictLookup_append]
    cases h : dictLookup g.graph u with
    | some l => simp
    | none =>
      by_cases hx : x = u <;> simp [dictLookup, hx]

theorem symAdj_add_vertex {g : AdjacencyList} (h : SymAdj g) (x : Int) :
    SymAdj (g.add_vertex x) := by
  intro u v
  rw [wseqD_add_vertex, wseqD_add_vertex]
  exact h u v

theorem add_vertex_directed (g : AdjacencyList) (x : Int) :
    (g.add_vertex x).directed = g.directed := by
  unfold AdjacencyList.add_vertex
  split <;> rfl

theorem wseqD_double_append (G : Dict (List (Int × Weight))) (a b : Int)
    (w : Weight) (u v : Int) :
    wseqD (AdjacencyList.adjAppend
        (AdjacencyList.adjAppend G a (b, w)) b (a, w)) u v =
      wseqD G u v ++ (if u = a ∧ b = v then [w] else []) ++
        (if u = b ∧ a = v then [w] else []) := by
  rw [wseqD_adjAppend, wseqD_adjAppend]
  by_cases hub : u = b <;> by_cases hua : u = a
  · have hba : b = a := hub.symm.trans hua
    simp [hub, hua, hba, List.append_assoc]
  · have hba : ¬b = a := fun hh => hua (hub.trans hh)
    simp [hub, hua, hba, List.append_assoc]
  · have hab : ¬a = b := fun hh => hub (hua.trans hh)
    simp [hub, hua, hab, List.append_assoc]
  · simp [hub, hua, List.append_assoc]

theorem singletonIf_append_comm (c d : Prop) [Decidable c] [Decidable d]
    (w : Weight) :
    (if c then [w] else []) ++ (if d then [w] else []) =
      (if d then [w] else []) ++ (if c then [w] else []) := by
  by_cases hc : c <;> by_cases hd : d <;> simp [hc, hd]

theorem symAdj_add_edge {g : AdjacencyList} (hd : g.directed = false)
    (h : SymAdj g) (a b : Int) (w : Weight) : SymAdj (g.add_edge a b w) := by
  have h2 : SymAdj ((g.add_vertex a).add_vertex b) :=
    symAdj_add_vertex (symAdj_add_vertex h a) b
  have hd2 : ((g.add_vertex a).add_vertex b).directed = false := by
    rw [add_vertex_directed, add_vertex_directed, hd]
  intro u v
  simp only [AdjacencyList.add_edge, hd2, Bool.false_eq_true, if_false]
  rw [wseqD_double_append, wseqD_double_append, h2 u v]
  rw [List.append_assoc, List.append_assoc]
  have e1 : (u = a ∧ b = v) ↔ (v = b ∧ a = u) :=
    ⟨fun ⟨x, y⟩ => ⟨y.symm, x.symm⟩, fun ⟨x, y⟩ => ⟨y.symm, x.symm⟩⟩
  have e2 : (u = b ∧ a = v) ↔ (v = a ∧ b = u) :=
    ⟨fun ⟨x, y⟩ => ⟨y.symm, x.symm⟩, fun ⟨x, y⟩ => ⟨y.symm, x.symm⟩⟩
  rw [if_congr e1 rfl rfl, if_congr e2 rfl rfl]
  exact congrArg _ (singletonIf_append_comm _ _ w)

theorem wseqD_of_lookup_none {d : Dict (List (Int × Weight))} {x : Int}
    (h : dictLookup d x = none) (y : Int) : wseqD d x y = [] := by
  simp [wseqD, h]

theorem filter_ne_filter_eq (l : List (Int × Weight)) (b v : Int) :
    ((l.filter fun p => p.1 ≠ b).filter fun p => p.1 == v) =
      if v = b then [] else l.filter fun p => p.1 == v := by
  rw [List.filter_filter]
  by_cases hv : v = b
  · rw [if_pos hv]
    subst hv
    refine List.filter_eq_nil_iff.mpr ?_
    intro a _
    by_cases ha : a.1 = v <;> simp [ha]
  · rw [if_neg hv]
    apply List.filter_congr
    intro a _
    by_cases ha : a.1 = v
    · have hab : ¬a.1 = b := fun hh => hv (ha.symm.trans hh)
      simp [ha, hab, hv]
    · simp [ha]

theorem wseqD_dictSet_filter_ne (d : Dict (List (Int × Weight))) (a b : Int)
    (base : List (Int × Weight)) (u v : Int) :
    wseqD (dictSet d a (base.filter fun p => p.1 ≠ b)) u v =
      if u = a then
        (if v = b then [] else (base.filter fun p => p.1 == v).map (·.2))
      else wseqD d u v := by
  rw [wseqD_dictSet]
  by_cases hu : u = a
  · simp only [hu, if_true]
    rw [filter_ne_filter_eq]
    by_cases hv : v = b <;> simp [hv]
  · simp [hu]

theorem symAdj_remove_edge {g : AdjacencyList} (hd : g.directed = false)
    (h : SymAdj g) (a b : Int) : SymAdj (g.remove_edge a b) := by
  unfold AdjacencyList.remove_edge
  by_cases hm : dictMem g.graph a
  · simp only [hm, if_true, hd, Bool.not_false, Bool.true_and]
    have hA : ∀ u v,
        wseqD (dictSet g.graph a
          (((dictLookup g.graph a).getD []).filter fun p => p.1 ≠ b)) u v =
        if u = a then (if v = b then [] else wseqD g.graph a v)
        else wseqD g.graph u v := by
      intro u v
      rw [wseqD_dictSet_filter_ne]
      by_cases hu : u = a <;> by_cases hv : v = b <;> simp [hu, hv, wseqD]
    by_cases hb : dictMem (dictSet g.graph a
        (((dictLookup g.graph a).getD []).filter fun p => p.1 ≠ b)) b
    · rw [if_pos hb]
      intro u v
      have hB : ∀ x y,
          wseqD (dictSet (dictSet g.graph a
              (((dictLookup g.graph a).getD []).filter fun p => p.1 ≠ b)) b
            (((dictLookup (dictSet g.graph a
              (((dictLookup g.graph a).getD []).filter fun p => p.1 ≠ b))
              b).getD []).filter fun p => p.1 ≠ a)) x y =
          if x = b then
            (if y = a then []
             else wseqD (dictSet g.graph a
               (((dictLookup g.graph a).getD []).filter fun p => p.1 ≠ b)) b y)
          else wseqD (dictSet g.graph a
            (((dictLookup g.graph a).getD []).filter fun p => p.1 ≠ b)) x y := by
        intro x y
        rw [wseqD_dictSet_filter_ne]
        by_cases hx : x = b <;> by_cases hy : y = a <;>
          simp [hx, hy, wseqD]
      rw [hB, hB]
      by_cases hub : u = b <;> by_cases hvb : v = b
      · rw [hub, hvb]
      · rw [hub, if_pos rfl, if_neg hvb]
        by_cases hva : v = a
        · rw [if_pos hva, hva, hA]
          simp
        · rw [if_neg hva, hA, hA, if_neg hva]
          by_cases hba : b = a
          · rw [if_pos hba, if_neg hvb, hba]
            exact h a v
          · rw [if_neg hba]
            exact h b v
      · rw [hvb, if_neg hub, if_pos rfl]
        by_cases hua : u = a
        · rw [if_pos hua, hua, hA]
          simp
        · rw [if_neg hua, hA, hA, if_neg hua]
          by_cases hba : b = a
          · rw [if_pos hba, if_neg hub, hba]
            exact h u a
          · rw [if_neg hba]
            exact h u b
      · rw [if_neg hub, if_neg hvb, hA, hA]
        by_cases hua : u = a <;> by_cases hva : v = a
        · rw [hua, hva]
        · rw [hua, if_pos rfl, if_neg hvb, if_neg hva]
          exact h a v
        · rw [hva, if_neg hua, if_pos rfl, if_neg hub]
          exact h u a
        · rw [if_neg hua, if_neg hva]
          exact h u v
    · rw [if_neg hb]
      intro u v
      have hnb : dictLookup (dictSet g.graph a
          (((dictLookup g.graph a).getD []).filter fun p => p.1 ≠ b)) b =
            none := by
        rw [dictMem] at hb
        cases hq : dictLookup (dictSet g.graph a
            (((dictLookup g.graph a).getD []).filter fun p => p.1 ≠ b)) b
        · rfl
        · rw [hq] at hb
          simp at hb
      have hba : ¬b = a := by
        intro hh
        rw [dictLookup_set] at hnb
        simp [hh] at hnb
      have hgb : dictLookup g.graph b = none := by
        rw [dictLookup_set] at hnb
        simpa [hba] using hnb
      rw [hA, hA]
      by_cases hua : u = a <;> by_cases hva : v = a
      · rw [hua, hva]
      · simp only [hua, hva, if_true, if_false]
        by_cases hvb : v = b
        · rw [if_pos hvb, hvb]
          exact (wseqD_of_lookup_none hgb a).symm
        · rw [if_neg hvb]
          exact h a v
      · simp only [hua, hva, if_true, if_false]
        by_cases hub : u = b
        · rw [if_pos hub, hub]
          exact wseqD_of_lookup_none hgb a
        · rw [if_neg hub]
          exact h u a
      · simp only [hua, hva, if_false]
        exact h u v
  · rw [if_neg hm]
    exact h

theorem add_edge_directed (g : AdjacencyList) (u v : Int) (w : Weight) :
    (g.add_edge u v w).directed = g.directed := by
  show ((g.add_vertex u).add_vertex v).directed = g.directed
  rw [add_vertex_directed, add_vertex_directed]

theorem remove_edge_directed (g : AdjacencyList) (u v : Int) :
    (g.remove_edge u v).directed = g.directed := by
  unfold AdjacencyList.remove_edge
  split <;> rfl

theorem applyOp_directed (g : AdjacencyList) (op : Op) :
    (g.applyOp op).directed = g.directed := by
  cases op with
  | addVertex v => exact add_vertex_directed g v
  | addEdge u v w => exact add_edge_directed g u v w
  | removeEdge u v => exact remove_edge_directed g u v

theorem symAdj_applyOp {g : AdjacencyList} (hd : g.directed = false)
    (h : SymAdj g) (op : Op) : SymAdj (g.applyOp op) := by
  cases op with
  | addVertex v => exact symAdj_add_vertex h v
  | addEdge u v w => exact symAdj_add_edge hd h u v w
  | removeEdge u v => exact symAdj_remove_edge hd h u v

theorem symAdj_runOps (ops : List Op) (g : AdjacencyList)
    (hd : g.directed = false) (h : SymAdj g) : SymAdj (g.runOps ops) := by
  induction ops generalizing g with
  | nil => exact h
  | cons op rest ih =>
    exact ih (g.applyOp op) ((applyOp_directed g op).trans hd)
      (symAdj_applyOp hd h op)

/-!  Dense-store symmetry lemmas. -/

theorem mget_grid (f : Nat → Nat → Option Weight) (n i j : Nat) :
    mget ((List.range n).map fun a => (List.range n).map fun c => f a c) i j =
      if i < n ∧ j < n then f i j else none := by
  unfold mget
  by_cases hi : i < n
  · rw [List.getElem?_map, List.getElem?_range hi]
    simp only [Option.map_some', Option.getD_some]
    by_cases hj : j < n
    · rw [List.getElem?_map, List.getElem?_range hj]
      simp [hi, hj]
    · rw [List.getElem?_eq_none
        (l := (List.range n).map fun c => f i c)
        (by simpa using Nat.le_of_not_lt hj)]
      simp [hi, hj]
  · rw [List.getElem?_eq_none
      (l := (List.range n).map fun a => (List.range n).map fun c => f a c)
      (by simpa using Nat.le_of_not_lt hi)]
    simp [hi]

theorem mset_length (m : List (List (Option Weight))) (i j : Nat)
    (w : Option Weight) : (mset m i j w).length = m.length :=
  List.length_set m i _

theorem mset_rows {m : List (List (Option Weight))} {n : Nat}
    (hlen : m.length = n) (hrows : ∀ r ∈ m, r.length = n) (i j : Nat)
    (hi : i < n) (w : Option Weight) :
    ∀ r ∈ mset m i j w, r.length = n := by
  intro r hrm
  rcases List.mem_or_eq_of_mem_set hrm with hmem | heq
  · exact hrows r hmem
  · subst heq
    rw [List.length_set]
    have hi2 : i < m.length := hlen ▸ hi
    rw [List.getElem?_eq_getElem hi2]
    simpa using hrows _ (List.getElem_mem hi2)

theorem mget_mset {m : List (List (Option Weight))} {n : Nat}
    (hlen : m.length = n) (hrows : ∀ r ∈ m, r.length = n) (i j : Nat)
    (hi : i < n) (hj : j < n) (w : Option Weight) (x y : Nat) :
    mget (mset m i j w) x y = if x = i ∧ y = j then w else mget m x y := by
  have hi2 : i < m.length := hlen ▸ hi
  have hrowlen : (m[i]?.getD []).length = n := by
    rw [List.getElem?_eq_getElem hi2]
    simpa using hrows _ (List.getElem_mem hi2)
  unfold mget mset
  rw [List.getElem?_set]
  by_cases hx : i = x
  · subst hx
    rw [if_pos rfl, if_pos hi2]
    simp only [Option.getD_some]
    rw [List.getElem?_set]
    by_cases hy : j = y
    · subst hy
      rw [if_pos rfl, if_pos (hrowlen ▸ hj)]
      simp
    · rw [if_neg hy]
      have hyj : ¬y = j := fun hh => hy hh.symm
      simp [hyj]
  · rw [if_neg hx]
    have hxi : ¬x = i := fun hh => hx hh.symm
    simp [hxi]

theorem matWF_add_vertex {g : AdjacencyMatrix} (h : MatWF g) (v : Int) :
    MatWF (g.add_vertex v) := by
  unfold AdjacencyMatrix.add_vertex
  by_cases hv : v ∈ g.vertices
  · simpa [hv] using h
  · rw [if_neg hv]
    constructor
    · simp
    · intro r hr
      simp only [List.mem_map] at hr
      obtain ⟨i, _, hi⟩ := hr
      simp [← hi]

theorem matSym_add_vertex {g : AdjacencyMatrix} (hs : MatSym g) (v : Int) :
    MatSym (g.add_vertex v) := by
  unfold AdjacencyMatrix.add_vertex
  by_cases hv : v ∈ g.vertices
  · simpa [hv] using hs
  · rw [if_neg hv]
    intro i j
    simp only
    rw [mget_grid, mget_grid]
    by_cases h1 : i < g.vertices.length + 1 ∧ j < g.vertices.length + 1
    · have h1s : j < g.vertices.length + 1 ∧ i < g.vertices.length + 1 :=
        ⟨h1.2, h1.1⟩
      rw [if_pos h1, if_pos h1s]
      by_cases h2 : i < g.vertices.length ∧ j < g.vertices.length
      · rw [if_pos h2, if_pos ⟨h2.2, h2.1⟩, hs i j]
      · have h2s : ¬(j < g.vertices.length ∧ i < g.vertices.length) :=
          fun hh => h2 ⟨hh.2, hh.1⟩
        rw [if_neg h2, if_neg h2s]
    · have h1s : ¬(j < g.vertices.length + 1 ∧ i < g.vertices.length + 1) :=
        fun hh => h1 ⟨hh.2, hh.1⟩
      rw [if_neg h1, if_neg h1s]

theorem matrix_add_vertex_directed (g : AdjacencyMatrix) (v : Int) :
    (g.add_vertex v).directed = g.directed := by
  unfold AdjacencyMatrix.add_vertex
  split <;> rfl

theorem matrix_add_vertex_mem_self (g : AdjacencyMatrix) (v : Int) :
    v ∈ (g.add_vertex v).vertices := by
  unfold AdjacencyMatrix.add_vertex
  by_cases hv : v ∈ g.vertices <;> simp [hv]

theorem matrix_add_vertex_mem_of {g : AdjacencyMatrix} {x : Int}
    (h : x ∈ g.vertices) (v : Int) : x ∈ (g.add_vertex v).vertices := by
  unfold AdjacencyMatrix.add_vertex
  by_cases hv : v ∈ g.vertices <;> simp [hv, h]

theorem matWF_matSym_add_edge {g : AdjacencyMatrix}
    (hd : g.directed = false) (hw : MatWF g) (hs : MatSym g) (a b : Int)
    (w : Weight) : MatWF (g.add_edge a b w) ∧ MatSym (g.add_edge a b w) := by
  have hw2 : MatWF ((g.add_vertex a).add_vertex b) :=
    matWF_add_vertex (matWF_add_vertex hw a) b
  have hs2 : MatSym ((g.add_vertex a).add_vertex b) :=
    matSym_add_vertex (matSym_add_vertex hs a) b
  have hd2 : ((g.add_vertex a).add_vertex b).directed = false := by
    rw [matrix_add_vertex_directed, matrix_add_vertex_directed, hd]
  have hma : a ∈ ((g.add_vertex a).add_vertex b).vertices :=
    matrix_add_vertex_mem_of (matrix_add_vertex_mem_self g a) b
  have hmb : b ∈ ((g.add_vertex a).add_vertex b).vertices :=
    matrix_add_vertex_mem_self (g.add_vertex a) b
  have hia : List.indexOf a ((g.add_vertex a).add_vertex b).vertices <
      ((g.add_vertex a).add_vertex b).vertices.length :=
    List.indexOf_lt_length.mpr hma
  have hib : List.indexOf b ((g.add_vertex a).add_vertex b).vertices <
      ((g.add_vertex a).add_vertex b).vertices.length :=
    List.indexOf_lt_length.mpr hmb
  simp only [AdjacencyMatrix.add_edge, hd2, Bool.false_eq_true, if_false]
  obtain ⟨hlen2, hrows2⟩ := hw2
  have hw3 : MatWF { (g.add_vertex a).add_vertex b with
      matrix := mset ((g.add_vertex a).add_vertex b).matrix
        (List.indexOf a ((g.add_vertex a).add_vertex b).vertices)
        (List.indexOf b ((g.add_vertex a).add_vertex b).vertices) (some w) } :=
    ⟨by rw [mset_length, hlen2],
     mset_rows hlen2 hrows2 _ _ hia (some w)⟩
  constructor
  · exact ⟨by rw [mset_length, mset_length, hlen2],
      mset_rows (by rw [mset_length, hlen2])
        (mset_rows hlen2 hrows2 _ _ hia (some w)) _ _ hib (some w)⟩
  · intro i j
    simp only
    rw [mget_mset (by rw [mset_length, hlen2])
        (mset_rows hlen2 hrows2 _ _ hia (some w)) _ _ hib hia (some w),
      mget_mset (by rw [mset_length, hlen2])
        (mset_rows hlen2 hrows2 _ _ hia (some w)) _ _ hib hia (some w),
      mget_mset hlen2 hrows2 _ _ hia hib (some w),
      mget_mset hlen2 hrows2 _ _ hia hib (some w)]
    by_cases h1 : i = List.indexOf b ((g.add_vertex a).add_vertex b).vertices ∧
        j = List.indexOf a ((g.add_vertex a).add_vertex b).vertices
    · have h1s : j = List.indexOf a ((g.add_vertex a).add_vertex b).vertices ∧
          i = List.indexOf b ((g.add_vertex a).add_vertex b).vertices :=
        ⟨h1.2, h1.1⟩
      by_cases h2 : j = List.indexOf b ((g.add_vertex a).add_vertex b).vertices ∧
          i = List.indexOf a ((g.add_vertex a).add_vertex b).vertices <;>
        simp [h1, h1s, h2, fun hh : j = _ ∧ i = _ => (⟨hh.2, hh.1⟩ :
          i = _ ∧ j = _)]
    · have h1s : ¬(j = List.indexOf a ((g.add_vertex a).add_vertex b).vertices ∧
          i = List.indexOf b ((g.add_vertex a).add_vertex b).vertices) :=
        fun hh => h1 ⟨hh.2, hh.1⟩
      by_cases h2 : i = List.indexOf a ((g.add_vertex a).add_vertex b).vertices ∧
          j = List.indexOf b ((g.add_vertex a).add_vertex b).vertices
      · have h2s : j = List.indexOf b ((g.add_vertex a).add_vertex b).vertices ∧
            i = List.indexOf a ((g.add_vertex a).add_vertex b).vertices :=
          ⟨h2.2, h2.1⟩
        simp [h1, h1s, h2, h2s]
      · have h2s : ¬(j = List.indexOf b ((g.add_vertex a).add_vertex b).vertices ∧
            i = List.indexOf a ((g.add_vertex a).add_vertex b).vertices) :=
          fun hh => h2 ⟨hh.2, hh.1⟩
        simp [h1, h1s, h2, h2s, hs2 i j]

theorem matWF_matSym_remove_edge {g : AdjacencyMatrix}
    (hd : g.directed = false) (hw : MatWF g) (hs : MatSym g) (a b : Int) :
    MatWF (g.remove_edge a b) ∧ MatSym (g.remove_edge a b) := by
  unfold AdjacencyMatrix.remove_edge
  by_cases hm : a ∈ g.vertices ∧ b ∈ g.vertices
  · rw [if_pos hm, hd]
    obtain ⟨hlen, hrows⟩ := hw
    have hia : List.indexOf a g.vertices < g.vertices.length :=
      List.indexOf_lt_length.mpr hm.1
    have hib : List.indexOf b g.vertices < g.vertices.length :=
      List.indexOf_lt_length.mpr hm.2
    simp only [Bool.false_eq_true, if_false]
    constructor
    · exact ⟨by rw [mset_length, mset_length, hlen],
        mset_rows (by rw [mset_length, hlen])
          (mset_rows hlen hrows _ _ hia none) _ _ hib none⟩
    · intro i j
      simp only
      rw [mget_mset (by rw [mset_length, hlen])
          (mset_rows hlen hrows _ _ hia none) _ _ hib hia none,
        mget_mset (by rw [mset_length, hlen])
          (mset_rows hlen hrows _ _ hia none) _ _ hib hia none,
        mget_mset hlen hrows _ _ hia hib none,
        mget_mset hlen hrows _ _ hia hib none]
      by_cases h1 : i = List.indexOf b g.vertices ∧
          j = List.indexOf a g.vertices
      · have h1s : j = List.indexOf a g.vertices ∧
            i = List.indexOf b g.vertices := ⟨h1.2, h1.1⟩
        by_cases h2 : j = List.indexOf b g.vertices ∧
            i = List.indexOf a g.vertices <;>
          simp [h1, h1s, h2]
      · have h1s : ¬(j = List.indexOf a g.vertices ∧
            i = List.indexOf b g.vertices) := fun hh => h1 ⟨hh.2, hh.1⟩
        by_cases h2 : i = List.indexOf a g.vertices ∧
            j = List.indexOf b g.vertices
        · have h2s : j = List.indexOf b g.vertices ∧
              i = List.indexOf a g.vertices := ⟨h2.2, h2.1⟩
          simp [h1, h1s, h2, h2s]
        · have h2s : ¬(j = List.indexOf b g.vertices ∧
              i = List.indexOf a g.vertices) := fun hh => h2 ⟨hh.2, hh.1⟩
          simp [h1, h1s, h2, h2s, hs i j]
  · rw [if_neg hm]
    exact ⟨hw, hs⟩

theorem matrix_add_edge_directed (g : AdjacencyMatrix) (u v : Int)
    (w : Weight) : (g.add_edge u v w).directed = g.directed := by
  show ((g.add_vertex u).add_vertex v).directed = g.directed
  rw [matrix_add_vertex_directed, matrix_add_vertex_directed]

theorem matrix_remove_edge_directed (g : AdjacencyMatrix) (u v : Int) :
    (g.remove_edge u v).directed = g.directed := by
  unfold AdjacencyMatrix.remove_edge
  split <;> rfl

theorem matrix_applyOp_directed (g : AdjacencyMatrix) (op : Op) :
    (g.applyOp op).directed = g.directed := by
  cases op with
  | addVertex v => exact matrix_add_vertex_directed g v
  | addEdge u v w => exact matrix_add_edge_directed g u v w
  | removeEdge u v => exact matrix_remove_edge_directed g u v

theorem matInv_applyOp {g : AdjacencyMatrix} (hd : g.directed = false)
    (hw : MatWF g) (hs : MatSym g) (op : Op) :
    MatWF (g.applyOp op) ∧ MatSym (g.applyOp op) := by
  cases op with
  | addVertex v => exact ⟨matWF_add_vertex hw v, matSym_add_vertex hs v⟩
  | addEdge u v w => exact matWF_matSym_add_edge hd hw hs u v w
  | removeEdge u v => exact matWF_matSym_remove_edge hd hw hs u v

theorem matInv_runOps (ops : List Op) (g : AdjacencyMatrix)
    (hd : g.directed = false) (hw : MatWF g) (hs : MatSym g) :
    MatWF (g.runOps ops) ∧ MatSym (g.runOps ops) := by
  induction ops generalizing g with
  | nil => exact ⟨hw, hs⟩
  | cons op rest ih =>
    obtain ⟨hw2, hs2⟩ := matInv_applyOp hd hw hs op
    exact ih (g.applyOp op) ((matrix_applyOp_directed g op).trans hd) hw2 hs2

theorem matrix_hasEdge_sym {g : AdjacencyMatrix} (hs : MatSym g)
    (u v : Int) : g.has_edge u v = g.has_edge v u := by
  unfold AdjacencyMatrix.has_edge
  rw [hs (List.indexOf u g.vertices) (List.indexOf v g.vertices)]
  by_cases hu : u ∈ g.vertices <;> by_cases hv : v ∈ g.vertices <;>
    simp [hu, hv]

theorem matrix_getWeight_sym {g : AdjacencyMatrix} (hs : MatSym g)
    (u v : Int) : g.get_weight u v = g.get_weight v u := by
  unfold AdjacencyMatrix.get_weight
  rw [matrix_hasEdge_sym hs u v,
    hs (List.indexOf u g.vertices) (List.indexOf v g.vertices)]

/-- Claim C7: for a store constructed undirected (on either backend), after
any sequence of add_vertex, add_edge and remove_edge operations, has_edge
is symmetric in its arguments, and get_weight gives the same (possibly
absent) weight in both directions. -/
theorem c7_undirected_symmetry (wflag : Bool) (ops : List Op) (u v : Int) :
    (((AdjacencyMatrix.empty false wflag).runOps ops).has_edge u v =
      ((AdjacencyMatrix.empty false wflag).runOps ops).has_edge v u) ∧
    (((AdjacencyMatrix.empty false wflag).runOps ops).get_weight u v =
      ((AdjacencyMatrix.empty false wflag).runOps ops).get_weight v u) ∧
    (((AdjacencyList.empty false wflag).runOps ops).has_edge u v =
      ((AdjacencyList.empty false wflag).runOps ops).has_edge v u) ∧
    (((AdjacencyList.empty false wflag).runOps ops).get_weight u v =
      ((AdjacencyList.empty false wflag).runOps ops).get_weight v u) := by
  have hmat : MatWF ((AdjacencyMatrix.empty false wflag).runOps ops) ∧
      MatSym ((AdjacencyMatrix.empty false wflag).runOps ops) :=
    matInv_runOps ops (AdjacencyMatrix.empty false wflag) rfl
      ⟨rfl, by intro r hr; cases hr⟩ (fun i j => rfl)
  have hadj : SymAdj ((AdjacencyList.empty false wflag).runOps ops) :=
    symAdj_runOps ops (AdjacencyList.empty false wflag) rfl (fun a b => rfl)
  refine ⟨matrix_hasEdge_sym hmat.2 u v, matrix_getWeight_sym hmat.2 u v,
    ?_, ?_⟩
  · rw [hasEdge_eq_wseqD, hasEdge_eq_wseqD, hadj u v]
  · rw [getWeight_eq_wseqD, getWeight_eq_wseqD, hadj u v]

/-- Witness for C6 at a concrete undirected store. -/
theorem c6_witness :
    TopologicalSort.topological_sort
      ((AdjacencyList.empty false false).runOps [.addEdge 1 2 1]) =
        .error .valueError ∧
    TopologicalSort.topological_sort_dfs
      ((AdjacencyList.empty false false).runOps [.addEdge 1 2 1]) =
        .error .valueError :=
  c6_topological_sort_rejects_undirected
    ((AdjacencyList.empty false false).runOps [.addEdge 1 2 1]) rfl

/-!  Key-set lemmas for the dictionaries driving dijkstra and bfs. -/

theorem dictKeys_cons {α : Type} (p : Int × α) (d : Dict α) :
    dictKeys (p :: d) = p.1 :: dictKeys d := rfl

theorem dictMem_iff_keys {α : Type} (d : Dict α) (x : Int) :
    dictMem d x = true ↔ x ∈ dictKeys d := by
  induction d with
  | nil => simp [dictMem, dictLookup, dictKeys]
  | cons p rest ih =>
    obtain ⟨k, v⟩ := p
    rw [dictMem, dictLookup, dictKeys_cons]
    by_cases hk : k = x
    · subst hk
      simp
    · have hk2 : ¬x = k := fun hh => hk hh.symm
      rw [if_neg hk, List.mem_cons]
      rw [dictMem] at ih
      rw [ih]
      simp [hk2]

theorem dictLookup_mem {α : Type} {d : Dict α} {x : Int} {v : α}
    (h : dictLookup d x = some v) : (x, v) ∈ d := by
  induction d with
  | nil => simp [dictLookup] at h
  | cons p rest ih =>
    obtain ⟨k, w⟩ := p
    by_cases hk : k = x
    · subst hk
      rw [dictLookup, if_pos rfl] at h
      cases h
      exact List.mem_cons_self _ _
    · rw [dictLookup, if_neg hk] at h
      exact List.mem_cons_of_mem _ (ih h)

theorem dictLookup_eq_none_of_not_mem {α : Type} {d : Dict α} {x : Int}
    (h : ¬x ∈ dictKeys d) : dictLookup d x = none := by
  cases hq : dictLookup d x with
  | none => rfl
  | some v =>
    exact absurd ((dictMem_iff_keys d x).mp (by simp [dictMem, hq])) h

theorem dictKeys_dictSet {α : Type} (d : Dict α) (x : Int) (v : α) :
    dictKeys (dictSet d x v) =
      if dictMem d x then dictKeys d else dictKeys d ++ [x] := by
  induction d with
  | nil => simp [dictSet, dictKeys, dictMem, dictLookup]
  | cons p rest ih =>
    obtain ⟨k, w⟩ := p
    rw [dictSet]
    by_cases hk : k = x
    · rw [if_pos hk]
      have hm : dictMem ((k, w) :: rest) x = true := by
        rw [dictMem, dictLookup, if_pos hk]
        rfl
      rw [if_pos hm, dictKeys_cons, dictKeys_cons]
    · rw [if_neg hk]
      have hmc : dictMem ((k, w) :: rest) x = dictMem rest x := by
        rw [dictMem, dictMem, dictLookup, if_neg hk]
      rw [hmc]
      by_cases hm : dictMem rest x
      · rw [if_pos hm]
        rw [if_pos hm] at ih
        rw [dictKeys_cons, dictKeys_cons, ih]
      · rw [if_neg hm]
        rw [if_neg hm] at ih
        rw [dictKeys_cons, dictKeys_cons, ih, List.cons_append]

theorem dictKeys_map_const (l : List Int) {α : Type} (f : Int → α) :
    dictKeys (l.map fun v => (v, f v)) = l := by
  induction l with
  | nil => rfl
  | cons x rest ih => simp [dictKeys] at ih ⊢; exact ih

/-!  Dijkstra key-set invariants (claim C10). -/

theorem dijkstraScan_keys (c : Int) (cd : ℚ)
    (l : List (Int × Weight)) (dist : Dict (Option ℚ))
    (par : Dict (Option Int)) (pq : List (ℚ × Int)) (vis : List Int)
    (hmem : ∀ q ∈ l, dictMem dist q.1 = true) :
    ∃ d2 p2 q2,
      ShortestPath.dijkstraScan c cd l dist par pq vis = .ok (d2, p2, q2) ∧
      dictKeys d2 = dictKeys dist := by
  induction l generalizing dist par pq with
  | nil => exact ⟨dist, par, pq, rfl, rfl⟩
  | cons q rest ih =>
    obtain ⟨n, w⟩ := q
    rw [ShortestPath.dijkstraScan]
    by_cases hv : n ∈ vis
    · rw [if_pos hv]
      exact ih dist par pq (fun q hq => hmem q (List.mem_cons_of_mem _ hq))
    · rw [if_neg hv]
      have hn : dictMem dist n = true := hmem (n, w) (List.mem_cons_self _ _)
      rw [dictMem] at hn
      obtain ⟨dn, hq⟩ := Option.isSome_iff_exists.mp hn
      rw [hq]
      simp only
      by_cases hlt : ShortestPath.ltInf (cd + w) dn
      · rw [if_pos hlt]
        have hkeys : dictKeys (dictSet dist n (some (cd + w))) =
            dictKeys dist := by
          rw [dictKeys_dictSet, if_pos]
          rw [dictMem, hq]
          rfl
        obtain ⟨d2, p2, q2, heq, hk⟩ := ih
          (dictSet dist n (some (cd + w)))
          (dictSet par n (some c)) (pq ++ [(cd + w, n)])
          (fun q hqr => by
            rw [dictMem_iff_keys, hkeys, ← dictMem_iff_keys]
            exact hmem q (List.mem_cons_of_mem _ hqr))
        exact ⟨d2, p2, q2, heq, hk.trans hkeys⟩
      · rw [if_neg hlt]
        exact ih dist par pq (fun q hq => hmem q (List.mem_cons_of_mem _ hq))

theorem dijkstraLoop_keys (g : AdjacencyList) (hc : Closed g) (fuel : Nat)
    (pq : List (ℚ × Int)) (dist : Dict (Option ℚ)) (par : Dict (Option Int))
    (vis : List Int)
    (hmem : ∀ x, dictMem g.graph x = true → dictMem dist x = true) :
    ∃ d2 p2, ShortestPath.dijkstraLoop g fuel pq dist par vis = .ok (d2, p2) ∧
      dictKeys d2 = dictKeys dist := by
  induction fuel generalizing pq dist par vis with
  | zero => exact ⟨dist, par, rfl, rfl⟩
  | succ fuel ih =>
    rw [ShortestPath.dijkstraLoop]
    cases hpop : ShortestPath.heappop pq with
    | none => exact ⟨dist, par, rfl, rfl⟩
    | some pr =>
      obtain ⟨⟨cd, c⟩, pq2⟩ := pr
      simp only
      by_cases hv : c ∈ vis
      · rw [if_pos hv]
        exact ih pq2 dist par vis hmem
      · rw [if_neg hv]
        have hscan : ∀ q ∈ g.get_neighbors c, dictMem dist q.1 = true := by
          intro q hq
          apply hmem
          unfold AdjacencyList.get_neighbors at hq
          cases hl : dictLookup g.graph c with
          | none => rw [hl] at hq; cases hq
          | some l =>
            rw [hl] at hq
            exact hc (c, l) (dictLookup_mem hl) q hq
        obtain ⟨d2, p2, q2, heq, hk⟩ := dijkstraScan_keys c cd
          (g.get_neighbors c) dist par pq2 (c :: vis) hscan
        rw [heq]
        obtain ⟨d3, p3, heq3, hk3⟩ := ih q2 d2 p2 (c :: vis)
          (fun x hx => by
            rw [dictMem_iff_keys, hk, ← dictMem_iff_keys]
            exact hmem x hx)
        exact ⟨d3, p3, heq3, hk3.trans hk⟩

theorem dijkstra_ok_keys (g : AdjacencyList) (hc : Closed g) (s : Int) :
    ∃ d p, ShortestPath.dijkstra g s = .ok (d, p) ∧
      dictKeys d = (if s ∈ g.get_vertices then g.get_vertices
        else g.get_vertices ++ [s]) := by
  unfold ShortestPath.dijkstra
  have hbase : dictKeys (g.get_vertices.map
      (fun v => (v, (none : Option ℚ)))) = g.get_vertices :=
    dictKeys_map_const g.get_vertices (fun _ => (none : Option ℚ))
  have hkeys0 : dictKeys (dictSet (g.get_vertices.map
      (fun v => (v, (none : Option ℚ)))) s (some 0)) =
      (if s ∈ g.get_vertices then g.get_vertices
        else g.get_vertices ++ [s]) := by
    rw [dictKeys_dictSet, hbase]
    by_cases hs : s ∈ g.get_vertices
    · rw [if_pos hs, if_pos]
      rw [dictMem_iff_keys, hbase]
      exact hs
    · rw [if_neg hs, if_neg]
      rw [dictMem_iff_keys, hbase]
      exact hs
  obtain ⟨d, p, heq, hk⟩ := dijkstraLoop_keys g hc
    (ShortestPath.dijkstraFuel g) [(0, s)]
    (dictSet (g.get_vertices.map (fun v => (v, (none : Option ℚ)))) s
      (some 0))
    (g.get_vertices.map (fun v => (v, (none : Option Int)))) []
    (fun x hx => by
      rw [dictMem_iff_keys, hkeys0]
      have hxv : x ∈ g.get_vertices := by
        rw [dictMem_iff_keys] at hx
        exact hx
      by_cases hs : s ∈ g.get_vertices <;> simp [hs, hxv])
  exact ⟨d, p, heq, hk.trans hkeys0⟩

/-!  BFS loop invariants (claims C8 and C10). -/

theorem dictMem_dictSet_of {α : Type} {d : Dict α} {x : Int}
    (h : dictMem d x = true) (k : Int) (v : α) :
    dictMem (dictSet d k v) x = true := by
  rw [dictMem_set]
  rw [h]
  simp

theorem dictMem_dictSet_self {α : Type} (d : Dict α) (k : Int) (v : α) :
    dictMem (dictSet d k v) k = true := by
  rw [dictMem_set]
  simp

theorem bfsScan_inv (g : AdjacencyList) (s c : Int) (cd : Nat)
    (l : List (Int × Weight)) (dist : Dict Nat) (par : Dict (Option Int))
    (queue vis : List Int)
    (hinv : BfsInv s dist par vis)
    (hprov : BfsProv g s dist)
    (hq : ∀ x ∈ queue, dictMem dist x = true)
    (hc : c ∈ vis) (hcd : dictLookup dist c = some cd)
    (hl : ∀ q ∈ l, ∃ p ∈ g.graph, ∃ e ∈ p.2, e.1 = q.1) :
    ∃ d2 p2 q2 v2,
      GraphTraversal.bfsScan c cd l dist par queue vis = (d2, p2, q2, v2) ∧
      BfsInv s d2 p2 v2 ∧ BfsProv g s d2 ∧
      (∀ x ∈ q2, dictMem d2 x = true) ∧
      (∀ x dx, dictLookup dist x = some dx → dictLookup d2 x = some dx) := by
  induction l generalizing dist par queue vis with
  | nil => exact ⟨dist, par, queue, vis, rfl, hinv, hprov, hq, fun x dx h => h⟩
  | cons q rest ih =>
    obtain ⟨n, w⟩ := q
    rw [GraphTraversal.bfsScan]
    by_cases hv : n ∈ vis
    · rw [if_pos hv]
      exact ih dist par queue vis hinv hprov hq hc hcd
        (fun q hq2 => hl q (List.mem_cons_of_mem _ hq2))
    · rw [if_neg hv]
      obtain ⟨hkeq, hvis, hps, hroot, hchain⟩ := hinv
      have hnotmem : ¬dictMem dist n = true := fun hh => hv ((hvis n).mp hh)
      have hnpar : ¬dictMem par n = true := by
        intro hh
        exact hnotmem ((dictMem_iff_keys dist n).mpr
          (hkeq ▸ (dictMem_iff_keys par n).mp hh))
      have hcn : ¬c = n := fun hh => hv (hh ▸ hc)
      have hlook : ∀ x, dictLookup (dictSet dist n (cd + 1)) x =
          if x = n then some (cd + 1) else dictLookup dist x :=
        fun x => dictLookup_set dist n (cd + 1) x
      have hlookp : ∀ x, dictLookup (dictSet par n (some c)) x =
          if x = n then some (some c) else dictLookup par x :=
        fun x => dictLookup_set par n (some c) x
      have hsmem : s ∈ vis := by
        refine (hvis s).mp ?_
        rw [dictMem_iff_keys, hkeq, ← dictMem_iff_keys, dictMem, hps]
        rfl
      have hsn : ¬s = n := fun hh => hv (hh ▸ hsmem)
      have hinv2 : BfsInv s (dictSet dist n (cd + 1))
          (dictSet par n (some c)) (n :: vis) := by
        refine ⟨?_, ?_, ?_, ?_, ?_⟩
        · rw [dictKeys_dictSet, dictKeys_dictSet]
          rw [if_neg (by simpa using hnotmem), if_neg (by simpa using hnpar),
            hkeq]
        · intro x
          rw [dictMem_set]
          by_cases hx : x = n
          · simp [hx]
          · simp [hx, hvis x]
        · rw [hlookp s, if_neg hsn]
          exact hps
        · intro x hx
          rw [hlookp x] at hx
          by_cases hxn : x = n
          · rw [if_pos hxn] at hx
            cases hx
          · rw [if_neg hxn] at hx
            exact hroot x hx
        · intro x v hx
          rw [hlookp x] at hx
          by_cases hxn : x = n
          · rw [if_pos hxn] at hx
            cases hx
            refine ⟨cd + 1, cd, ?_, ?_, rfl⟩
            · rw [hlook x, if_pos hxn]
            · rw [hlook c, if_neg hcn]
              exact hcd
          · rw [if_neg hxn] at hx
            obtain ⟨dv, du, h1, h2, h3⟩ := hchain x v hx
            have hvn : ¬v = n := by
              intro hh
              apply hnotmem
              have h2n : dictLookup dist n = some du := hh ▸ h2
              rw [dictMem, h2n]
              rfl
            exact ⟨dv, du, by rw [hlook x, if_neg hxn]; exact h1,
              by rw [hlook v, if_neg hvn]; exact h2, h3⟩
      have hprov2 : BfsProv g s (dictSet dist n (cd + 1)) := by
        intro x hx
        rw [dictMem_set] at hx
        by_cases hxn : x = n
        · right
          obtain ⟨p, hp, e, he, he1⟩ := hl (n, w) (List.mem_cons_self _ _)
          exact ⟨p, hp, e, he, hxn ▸ he1⟩
        · apply hprov
          simpa [hxn] using hx
      refine ih (dictSet dist n (cd + 1)) (dictSet par n (some c))
        (queue ++ [n]) (n :: vis) hinv2 hprov2 ?_ (List.mem_cons_of_mem _ hc)
        ?_ (fun q hq2 => hl q (List.mem_cons_of_mem _ hq2)) |>.imp ?_
      · intro x hx
        rcases List.mem_append.mp hx with h1 | h1
        · exact dictMem_dictSet_of (hq x h1) n (cd + 1)
        · rw [List.mem_singleton.mp h1]
          exact dictMem_dictSet_self dist n (cd + 1)
      · rw [hlook c, if_neg hcn]
        exact hcd
      · intro d2 hd2
        refine hd2.imp fun p2 hp2 => hp2.imp fun q2 hq2 => hq2.imp
          fun v2 hv2 => ⟨hv2.1, hv2.2.1, hv2.2.2.1, hv2.2.2.2.1, ?_⟩
        intro x dx hdx
        refine hv2.2.2.2.2 x dx ?_
        rw [hlook x]
        have hxn : ¬x = n := by
          intro hh
          apply hnotmem
          have hdn : dictLookup dist n = some dx := hh ▸ hdx
          rw [dictMem, hdn]
          rfl
        rw [if_neg hxn]
        exact hdx

theorem bfsLoop_inv (g : AdjacencyList) (s : Int) (fuel : Nat)
    (queue vis : List Int) (dist : Dict Nat) (par : Dict (Option Int))
    (hinv : BfsInv s dist par vis)
    (hprov : BfsProv g s dist)
    (hq : ∀ x ∈ queue, dictMem dist x = true) :
    ∃ d2 p2 v2, GraphTraversal.bfsLoop g fuel queue dist par vis =
        .ok (d2, p2) ∧
      BfsInv s d2 p2 v2 ∧ BfsProv g s d2 := by
  induction fuel generalizing queue vis dist par with
  | zero => exact ⟨dist, par, vis, rfl, hinv, hprov⟩
  | succ fuel ih =>
    cases queue with
    | nil => exact ⟨dist, par, vis, rfl, hinv, hprov⟩
    | cons current queue =>
      rw [GraphTraversal.bfsLoop]
      have hcm : dictMem dist current = true :=
        hq current (List.mem_cons_self _ _)
      rw [dictMem] at hcm
      obtain ⟨cd, hcd⟩ := Option.isSome_iff_exists.mp hcm
      rw [hcd]
      simp only
      have hcvis : current ∈ vis := (hinv.2.1 current).mp (by
        rw [dictMem, hcd]
        rfl)
      have hl : ∀ q ∈ g.get_neighbors current,
          ∃ p ∈ g.graph, ∃ e ∈ p.2, e.1 = q.1 := by
        intro q hq2
        unfold AdjacencyList.get_neighbors at hq2
        cases hlk : dictLookup g.graph current with
        | none => rw [hlk] at hq2; cases hq2
        | some l =>
          rw [hlk] at hq2
          exact ⟨(current, l), dictLookup_mem hlk, q, hq2, rfl⟩
      obtain ⟨d2, p2, q2, v2, heq, hinv2, hprov2, hq2, _⟩ :=
        bfsScan_inv g s current cd (g.get_neighbors current) dist par queue
          vis hinv hprov (fun x hx => hq x (List.mem_cons_of_mem _ hx))
          hcvis hcd hl
      rw [heq]
      exact ih q2 v2 d2 p2 hinv2 hprov2 hq2

theorem bfs_ok_inv (g : AdjacencyList) (s : Int) :
    ∃ d p v, GraphTraversal.bfs g s = .ok (d, p) ∧ BfsInv s d p v ∧
      BfsProv g s d := by
  unfold GraphTraversal.bfs
  have hinv0 : BfsInv s [(s, 0)] [(s, none)] [s] := by
    refine ⟨rfl, ?_, ?_, ?_, ?_⟩
    · intro x
      by_cases hx : x = s
      · simp [dictMem, dictLookup, dictKeys, hx]
      · have hx2 : ¬s = x := fun hh => hx hh.symm
        simp [dictMem, dictLookup, dictKeys, hx, hx2]
    · simp [dictLookup]
    · intro x hx
      by_cases hxs : s = x
      · exact hxs.symm
      · rw [dictLookup, if_neg hxs] at hx
        cases hx
    · intro x v hx
      by_cases hxs : s = x
      · rw [dictLookup, if_pos hxs] at hx
        cases hx
      · rw [dictLookup, if_neg hxs] at hx
        cases hx
  have hprov0 : BfsProv g s [(s, 0)] := by
    intro x hx
    left
    rw [dictMem] at hx
    by_cases hxs : s = x
    · exact hxs.symm
    · rw [dictLookup, if_neg hxs] at hx
      simp [dictLookup] at hx
  exact bfsLoop_inv g s (GraphTraversal.bfsFuel g) [s] [s] [(s, 0)]
    [(s, none)] hinv0 hprov0
    (fun x hx => by
      rw [List.mem_singleton.mp hx, dictMem, dictLookup, if_pos rfl]
      rfl)

theorem reconPath_ok (par : Dict (Option Int)) (dist : Dict Nat) (s : Int)
    (hkeq : dictKeys dist = dictKeys par)
    (hroot : ∀ x, dictLookup par x = some none → x = s)
    (hchain : ∀ x v, dictLookup par x = some (some v) →
      ∃ dv du, dictLookup dist x = some dv ∧ dictLookup dist v = some du ∧
        dv = du + 1) :
    ∀ dv, ∀ v, dictLookup dist v = some dv → ∀ fuel, dv + 2 ≤ fuel →
      ∀ acc, ∃ chain, GraphTraversal.reconPath par fuel (some v) acc =
          .ok ((acc ++ chain).reverse) ∧
        chain.head? = some v ∧ chain.getLast? = some s := by
  intro dv
  induction dv using Nat.strong_induction_on with
  | _ dv ihd =>
    intro v hv fuel hfuel acc
    have hvpar : (dictLookup par v).isSome = true := by
      have : dictMem par v = true := by
        rw [dictMem_iff_keys, ← hkeq, ← dictMem_iff_keys, dictMem, hv]
        rfl
      rw [dictMem] at this
      exact this
    obtain ⟨pv, hpv⟩ := Option.isSome_iff_exists.mp hvpar
    obtain ⟨fuel2, rfl⟩ : ∃ f2, fuel = f2 + 1 :=
      ⟨fuel - 1, by omega⟩
    rw [GraphTraversal.reconPath, hpv]
    cases pv with
    | none =>
      have hvs : v = s := hroot v hpv
      refine ⟨[v], ?_, rfl, by rw [hvs]; rfl⟩
      show GraphTraversal.reconPath par fuel2 none (acc ++ [v]) =
        .ok ((acc ++ [v]).reverse)
      cases fuel2 <;> rfl
    | some p =>
      obtain ⟨dv2, du, h1, h2, h3⟩ := hchain v p hpv
      rw [hv] at h1
      cases h1
      obtain ⟨chain, hrec, hhead, hlast⟩ :=
        ihd du (by omega) p h2 fuel2 (by omega) (acc ++ [v])
      refine ⟨v :: chain, ?_, rfl, ?_⟩
      · show GraphTraversal.reconPath par fuel2 (some p) (acc ++ [v]) =
          .ok ((acc ++ v :: chain).reverse)
        rw [hrec, List.append_assoc]
        rfl
      · cases chain with
        | nil => cases hlast
        | cons c rest =>
          rw [List.getLast?_cons_cons]
          exact hlast

/-- Claim C8: bfs never raises and its two result maps share exactly the
same key list, so an unreached vertex is absent from both; bfs_path
returns the absent value precisely when the end vertex is not a distances
key, and otherwise returns a vertex list running from start to end
inclusive. -/
theorem c8_bfs_unreachability (g : AdjacencyList) (s e : Int) :
    ∃ d p, GraphTraversal.bfs g s = .ok (d, p) ∧
      dictKeys d = dictKeys p ∧
      (e ∉ dictKeys d → GraphTraversal.bfs_path g s e = .ok none) ∧
      (e ∈ dictKeys d →
        ∃ path, GraphTraversal.bfs_path g s e = .ok (some path) ∧
          path.head? = some s ∧ path.getLast? = some e) := by
  obtain ⟨d, p, v, hbfs, hinv, _⟩ := bfs_ok_inv g s
  refine ⟨d, p, hbfs, hinv.1, ?_, ?_⟩
  · intro he
    simp only [GraphTraversal.bfs_path, hbfs,
      dictLookup_eq_none_of_not_mem he]
  · intro he
    have hmem : (dictLookup d e).isSome = true := by
      have := (dictMem_iff_keys d e).mpr he
      rw [dictMem] at this
      exact this
    obtain ⟨de, hde⟩ := Option.isSome_iff_exists.mp hmem
    obtain ⟨chain, hrec, hhead, hlast⟩ :=
      reconPath_ok p d s hinv.1 hinv.2.2.2.1 hinv.2.2.2.2 de e hde (de + 2)
        (le_refl _) []
    refine ⟨chain.reverse, ?_, ?_, ?_⟩
    · simp only [GraphTraversal.bfs_path, hbfs, hde]
      rw [hrec]
      rfl
    · rw [List.head?_reverse]
      exact hlast
    · rw [List.getLast?_reverse]
      exact hhead

/-- Claim C10: the distances dict of dijkstra holds a key for exactly the
store vertices plus the start; for an end vertex outside that set
dijkstra_path fails with a KeyError on the distances read, while bfs_path
returns the absent value for the same end vertex. -/
theorem c10_dijkstra_distances_keyset (g : AdjacencyList) (s e : Int)
    (hc : Closed g) (he : e ∉ g.get_vertices) (hes : ¬e = s) :
    (∃ d p, ShortestPath.dijkstra g s = .ok (d, p) ∧
      (∀ x, x ∈ dictKeys d ↔ x ∈ g.get_vertices ∨ x = s)) ∧
    ShortestPath.dijkstra_path g s e = .error .keyError ∧
    GraphTraversal.bfs_path g s e = .ok none := by
  obtain ⟨d, p, hdij, hk⟩ := dijkstra_ok_keys g hc s
  have hkiff : ∀ x, x ∈ dictKeys d ↔ x ∈ g.get_vertices ∨ x = s := by
    intro x
    rw [hk]
    by_cases hs : s ∈ g.get_vertices
    · rw [if_pos hs]
      constructor
      · exact Or.inl
      · rintro (h | h)
        · exact h
        · exact h ▸ hs
    · rw [if_neg hs]
      simp [List.mem_append]
  refine ⟨⟨d, p, hdij, hkiff⟩, ?_, ?_⟩
  · have hnone : dictLookup d e = none := by
      apply dictLookup_eq_none_of_not_mem
      intro hh
      rcases (hkiff e).mp hh with h1 | h1
      · exact he h1
      · exact hes h1
    simp only [ShortestPath.dijkstra_path, hdij, hnone]
  · obtain ⟨d2, p2, v2, hbfs, hinv, hprov⟩ := bfs_ok_inv g s
    have hne : ¬e ∈ dictKeys d2 := by
      intro hh
      rcases hprov e ((dictMem_iff_keys d2 e).mpr hh) with h1 | hpe
      · exact hes h1
      · obtain ⟨pp, hpp, ee, hee, he1⟩ := hpe
        apply he
        have hm : dictMem g.graph e = true := he1 ▸ hc pp hpp ee hee
        rw [dictMem_iff_keys] at hm
        exact hm
    simp only [GraphTraversal.bfs_path, hbfs,
      dictLookup_eq_none_of_not_mem hne]

/-- Witness for C10 at the reference graph with the absent end vertex 99. -/
theorem c10_witness :
    ShortestPath.dijkstra_path dijkstraTestGraph 1 99 = .error .keyError ∧
    GraphTraversal.bfs_path dijkstraTestGraph 1 99 = .ok none :=
  ⟨(c10_dijkstra_distances_keyset dijkstraTestGraph 1 99
      (by unfold Closed; decide) (by decide) (by decide)).2.1,
   (c10_dijkstra_distances_keyset dijkstraTestGraph 1 99
      (by unfold Closed; decide) (by decide) (by decide)).2.2⟩

/-!  Depth-first search lemmas for claims C3 and C9: fuel stability of
both traversal styles, the iterative-to-recursive simulation, and the
specification of the component collector. -/

namespace GraphTraversal

theorem iterDFS_nil (nbrs : Int → List (Int × Weight))
    (ord : List Int → List Int) (F : Nat) (vis : List Int) :
    iterDFS nbrs ord F [] vis = ([], vis) := by
  cases F <;> rfl

theorem recDFSList_mono (f : Int → List Int → List Int × List Int)
    (hf : ∀ y v, v ⊆ (f y v).2) :
    ∀ ys vis, vis ⊆ (recDFSList f ys vis).2 := by
  intro ys
  induction ys with
  | nil => intro vis; simp only [recDFSList]; exact fun a h => h
  | cons y ys ih =>
    intro vis
    by_cases hy : y ∈ vis
    · simp only [recDFSList, if_pos hy]; exact ih vis
    · simp only [recDFSList, if_neg hy]
      exact fun a ha => ih (f y vis).2 (hf y vis ha)

theorem recDFS_mono (nbrs : Int → List (Int × Weight)) :
    ∀ fuel x vis, vis ⊆ (recDFS nbrs fuel x vis).2 := by
  intro fuel
  induction fuel with
  | zero => intro x vis; simp only [recDFS]; exact fun a h => h
  | succ fuel ih =>
    intro x vis a ha
    simp only [recDFS]
    exact recDFSList_mono _ (fun y v => ih y v) _ _
      (List.mem_cons_of_mem _ ha)

theorem recDFS_succ_sub (nbrs : Int → List (Int × Weight)) (fuel : Nat)
    (x : Int) (vis : List Int) :
    x :: vis ⊆ (recDFS nbrs (fuel + 1) x vis).2 := by
  simp only [recDFS]
  exact recDFSList_mono _ (fun y v => recDFS_mono nbrs fuel y v) _ _

theorem one_le_unvisLen {univ vis : List Int} {x : Int} (hx : x ∈ univ)
    (hv : x ∉ vis) : 1 ≤ unvisLen univ vis := by
  induction univ with
  | nil => cases hx
  | cons u rest ih =>
    rcases List.mem_cons.mp hx with h | h
    · subst h
      simp only [unvisLen, List.filter_cons]
      simp only [hv, decide_not]
      simp
    · by_cases hu : u ∈ vis
      · have h2 := ih h
        simp only [unvisLen, List.filter_cons] at *
        simp only [hu, decide_not] at *
        simpa using h2
      · simp only [unvisLen, List.filter_cons]
        simp only [hu, decide_not]
        simp

theorem unvisLen_anti (univ : List Int) {vis vis' : List Int}
    (h : vis ⊆ vis') : unvisLen univ vis' ≤ unvisLen univ vis := by
  induction univ with
  | nil => exact Nat.le_refl _
  | cons u rest ih =>
    by_cases hu : u ∈ vis'
    · have h1 : unvisLen (u :: rest) vis' = unvisLen rest vis' := by
        simp [unvisLen, List.filter_cons, hu]
      have h2 : unvisLen rest vis ≤ unvisLen (u :: rest) vis := by
        by_cases hv2 : u ∈ vis
        · simp [unvisLen, List.filter_cons, hv2]
        · simp [unvisLen, List.filter_cons, hv2]
      rw [h1]
      exact le_trans ih h2
    · have hnv : u ∉ vis := fun hh => hu (h hh)
      have h1 : unvisLen (u :: rest) vis' = unvisLen rest vis' + 1 := by
        simp [unvisLen, List.filter_cons, hu]
      have h2 : unvisLen (u :: rest) vis = unvisLen rest vis + 1 := by
        simp [unvisLen, List.filter_cons, hnv]
      omega

theorem unvisLen_drop (univ : List Int) {vis : List Int} {x : Int}
    (hx : x ∈ univ) (hv : x ∉ vis) :
    unvisLen univ (x :: vis) + 1 ≤ unvisLen univ vis := by
  have hvsub : vis ⊆ x :: vis := fun a ha => List.mem_cons_of_mem _ ha
  induction univ with
  | nil => cases hx
  | cons u rest ih =>
    by_cases hux : u = x
    · subst hux
      have h1 : unvisLen (u :: rest) (u :: vis) = unvisLen rest (u :: vis) := by
        simp [unvisLen, List.filter_cons]
      have h2 : unvisLen (u :: rest) vis = unvisLen rest vis + 1 := by
        simp [unvisLen, List.filter_cons, hv]
      have h3 := unvisLen_anti rest hvsub
      omega
    · by_cases hu : u ∈ vis
      · have h1 : unvisLen (u :: rest) (x :: vis) =
            unvisLen rest (x :: vis) := by
          simp [unvisLen, List.filter_cons, hu]
        have h2 : unvisLen (u :: rest) vis = unvisLen rest vis := by
          simp [unvisLen, List.filter_cons, hu]
        have hxr : x ∈ rest := by
          rcases List.mem_cons.mp hx with hh | hh
          · exact absurd hh.symm hux
          · exact hh
        have := ih hxr
        omega
      · have h1 : unvisLen (u :: rest) (x :: vis) =
            unvisLen rest (x :: vis) + 1 := by
          simp [unvisLen, List.filter_cons, hux, hu]
        have h2 : unvisLen (u :: rest) vis = unvisLen rest vis + 1 := by
          simp [unvisLen, List.filter_cons, hu]
        have hxr : x ∈ rest := by
          rcases List.mem_cons.mp hx with hh | hh
          · exact absurd hh.symm hux
          · exact hh
        have := ih hxr
        omega

theorem sumUnvis_anti (f : Int → Nat) (univ : List Int)
    {vis vis' : List Int} (h : vis ⊆ vis') :
    ((univ.filter (fun v => v ∉ vis')).map f).sum ≤
      ((univ.filter (fun v => v ∉ vis)).map f).sum := by
  induction univ with
  | nil => exact Nat.le_refl _
  | cons u rest ih =>
    by_cases hu : u ∈ vis'
    · have h1 : (u :: rest).filter (fun v => v ∉ vis') =
          rest.filter (fun v => v ∉ vis') := by
        simp [List.filter_cons, hu]
      have h2 : ((rest.filter (fun v => v ∉ vis)).map f).sum ≤
          (((u :: rest).filter (fun v => v ∉ vis)).map f).sum := by
        by_cases hv2 : u ∈ vis
        · simp [List.filter_cons, hv2]
        · simp [List.filter_cons, hv2]
      rw [h1]
      exact le_trans ih h2
    · have hnv : u ∉ vis := fun hh => hu (h hh)
      have h1 : (u :: rest).filter (fun v => v ∉ vis') =
          u :: rest.filter (fun v => v ∉ vis') := by
        simp [List.filter_cons, hu]
      have h2 : (u :: rest).filter (fun v => v ∉ vis) =
          u :: rest.filter (fun v => v ∉ vis) := by
        simp [List.filter_cons, hnv]
      rw [h1, h2]
      simp only [List.map_cons, List.sum_cons]
      omega

theorem sumUnvis_drop (f : Int → Nat) (univ : List Int) {vis : List Int}
    {x : Int} (hx : x ∈ univ) (hv : x ∉ vis) :
    ((univ.filter (fun v => v ∉ x :: vis)).map f).sum + f x ≤
      ((univ.filter (fun v => v ∉ vis)).map f).sum := by
  have hvsub : vis ⊆ x :: vis := fun a ha => List.mem_cons_of_mem _ ha
  induction univ with
  | nil => cases hx
  | cons u rest ih =>
    by_cases hux : u = x
    · subst hux
      have h1 : (u :: rest).filter (fun v => v ∉ u :: vis) =
          rest.filter (fun v => v ∉ u :: vis) := by
        simp [List.filter_cons]
      have h2 : (u :: rest).filter (fun v => v ∉ vis) =
          u :: rest.filter (fun v => v ∉ vis) := by
        simp [List.filter_cons, hv]
      have h3 := sumUnvis_anti f rest hvsub
      rw [h1, h2]
      simp only [List.map_cons, List.sum_cons]
      omega
    · by_cases hu : u ∈ vis
      · have h1 : (u :: rest).filter (fun v => v ∉ x :: vis) =
            rest.filter (fun v => v ∉ x :: vis) := by
          simp [List.filter_cons, hu]
        have h2 : (u :: rest).filter (fun v => v ∉ vis) =
            rest.filter (fun v => v ∉ vis) := by
          simp [List.filter_cons, hu]
        have hxr : x ∈ rest := by
          rcases List.mem_cons.mp hx with hh | hh
          · exact absurd hh.symm hux
          · exact hh
        rw [h1, h2]
        exact ih hxr
      · have h1 : (u :: rest).filter (fun v => v ∉ x :: vis) =
            u :: rest.filter (fun v => v ∉ x :: vis) := by
          simp [List.filter_cons, hux, hu]
        have h2 : (u :: rest).filter (fun v => v ∉ vis) =
            u :: rest.filter (fun v => v ∉ vis) := by
          simp [List.filter_cons, hu]
        have hxr : x ∈ rest := by
          rcases List.mem_cons.mp hx with hh | hh
          · exact absurd hh.symm hux
          · exact hh
        have := ih hxr
        rw [h1, h2]
        simp only [List.map_cons, List.sum_cons]
        omega

theorem recDFS_stab (nbrs : Int → List (Int × Weight)) (univ : List Int)
    (hcl : UnivClosed nbrs univ) :
    ∀ k,
      (∀ f1 f2 vis x, x ∈ univ → x ∉ vis → unvisLen univ vis ≤ k →
        unvisLen univ vis ≤ f1 → unvisLen univ vis ≤ f2 →
        recDFS nbrs f1 x vis = recDFS nbrs f2 x vis) ∧
      (∀ f1 f2 vis ys, ys ⊆ univ → unvisLen univ vis ≤ k →
        unvisLen univ vis ≤ f1 → unvisLen univ vis ≤ f2 →
        recDFSList (fun y v => recDFS nbrs f1 y v) ys vis =
          recDFSList (fun y v => recDFS nbrs f2 y v) ys vis) := by
  intro k
  induction k with
  | zero =>
    constructor
    · intro f1 f2 vis x hx hxv hk _ _
      exact absurd hk (by
        have := one_le_unvisLen hx hxv
        omega)
    · intro f1 f2 vis ys hys hk _ _
      induction ys with
      | nil => rfl
      | cons y ys ih =>
        have hy : y ∈ vis := by
          by_contra hy
          have := one_le_unvisLen (hys (List.mem_cons_self _ _)) hy
          omega
        simp only [recDFSList, if_pos hy]
        exact ih (fun a ha => hys (List.mem_cons_of_mem _ ha))
  | succ k ihk =>
    have hA : ∀ f1 f2 vis x, x ∈ univ → x ∉ vis →
        unvisLen univ vis ≤ k + 1 → unvisLen univ vis ≤ f1 →
        unvisLen univ vis ≤ f2 →
        recDFS nbrs f1 x vis = recDFS nbrs f2 x vis := by
      intro f1 f2 vis x hx hxv hk hf1 hf2
      have h1 := one_le_unvisLen hx hxv
      have hdrop := unvisLen_drop univ hx hxv
      obtain ⟨g1, rfl⟩ : ∃ g, f1 = g + 1 := ⟨f1 - 1, by omega⟩
      obtain ⟨g2, rfl⟩ : ∃ g, f2 = g + 1 := ⟨f2 - 1, by omega⟩
      have hsub : ((nbrs x).map (·.1)) ⊆ univ := by
        intro z hz
        obtain ⟨q, hq, hqz⟩ := List.mem_map.mp hz
        exact hqz ▸ hcl x hx q hq
      have hB := ihk.2 g1 g2 (x :: vis) ((nbrs x).map (·.1)) hsub
        (by omega) (by omega) (by omega)
      simp only [recDFS]
      rw [hB]
    refine ⟨hA, ?_⟩
    intro f1 f2 vis ys hys hk hf1 hf2
    induction ys with
    | nil => rfl
    | cons y ys ih =>
      by_cases hy : y ∈ vis
      · simp only [recDFSList, if_pos hy]
        exact ih (fun a ha => hys (List.mem_cons_of_mem _ ha))
      · have hyu : y ∈ univ := hys (List.mem_cons_self _ _)
        have h1 := one_le_unvisLen hyu hy
        have hAy := hA f1 f2 vis y hyu hy hk hf1 hf2
        simp only [recDFSList, if_neg hy]
        rw [hAy]
        obtain ⟨g2, rfl⟩ : ∃ g, f2 = g + 1 := ⟨f2 - 1, by omega⟩
        have hsub2 : y :: vis ⊆ (recDFS nbrs (g2 + 1) y vis).2 :=
          recDFS_succ_sub nbrs g2 y vis
        have hdrop := unvisLen_drop univ hyu hy
        have hanti := unvisLen_anti univ hsub2
        have hanti2 := unvisLen_anti univ
          (show vis ⊆ (recDFS nbrs (g2 + 1) y vis).2 from
            fun a ha => hsub2 (List.mem_cons_of_mem _ ha))
        have htail := ihk.2 f1 (g2 + 1) (recDFS nbrs (g2 + 1) y vis).2 ys
          (fun a ha => hys (List.mem_cons_of_mem _ ha))
          (by omega) (by omega) (by omega)
        rw [htail]

theorem recDFSList_filter (f : Int → List Int → List Int × List Int)
    (hf : ∀ y v, v ⊆ (f y v).2) :
    ∀ ys (vis0 vis : List Int), vis0 ⊆ vis →
      recDFSList f (ys.filter (fun z => z ∉ vis0)) vis =
        recDFSList f ys vis := by
  intro ys
  induction ys with
  | nil => intro vis0 vis h; rfl
  | cons y ys ih =>
    intro vis0 vis h
    by_cases h0 : y ∈ vis0
    · have hyv : y ∈ vis := h h0
      have hfil : (y :: ys).filter (fun z => z ∉ vis0) =
          ys.filter (fun z => z ∉ vis0) := by
        simp [List.filter_cons, h0]
      have hR : recDFSList f (y :: ys) vis = recDFSList f ys vis := by
        simp only [recDFSList, if_pos hyv]
      rw [hfil, hR]
      exact ih vis0 vis h
    · have hfil : (y :: ys).filter (fun z => z ∉ vis0) =
          y :: ys.filter (fun z => z ∉ vis0) := by
        simp [List.filter_cons, h0]
      rw [hfil]
      by_cases hyv : y ∈ vis
      · have hR : recDFSList f (y :: ys) vis = recDFSList f ys vis := by
          simp only [recDFSList, if_pos hyv]
        have hL : recDFSList f (y :: ys.filter (fun z => z ∉ vis0)) vis =
            recDFSList f (ys.filter (fun z => z ∉ vis0)) vis := by
          simp only [recDFSList, if_pos hyv]
        rw [hL, hR]
        exact ih vis0 vis h
      · simp only [recDFSList, if_neg hyv]
        rw [ih vis0 (f y vis).2 (fun a ha => hf y vis (h ha))]

theorem iterDFS_stab (nbrs : Int → List (Int × Weight)) (univ : List Int)
    (hcl : UnivClosed nbrs univ) (ord : List Int → List Int)
    (hordm : ∀ (l : List Int) (x : Int), x ∈ ord l → x ∈ l)
    (hordl : ∀ l : List Int, (ord l).length = l.length) :
    ∀ n vis st F1 F2, st ⊆ univ →
      measDFS nbrs univ vis st ≤ n →
      measDFS nbrs univ vis st ≤ F1 →
      measDFS nbrs univ vis st ≤ F2 →
      iterDFS nbrs ord F1 st vis = iterDFS nbrs ord F2 st vis := by
  intro n
  induction n using Nat.strong_induction_on with
  | _ n IH =>
  intro vis st F1 F2 hst hn h1 h2
  match st with
  | [] => rw [iterDFS_nil, iterDFS_nil]
  | x :: st =>
    have hx : x ∈ univ := hst (List.mem_cons_self _ _)
    have hm1 : 1 ≤ measDFS nbrs univ vis (x :: st) := by
      simp only [measDFS, List.length_cons]
      omega
    obtain ⟨a, rfl⟩ : ∃ a, F1 = a + 1 := ⟨F1 - 1, by omega⟩
    obtain ⟨b, rfl⟩ : ∃ b, F2 = b + 1 := ⟨F2 - 1, by omega⟩
    by_cases hv : x ∈ vis
    · simp only [iterDFS, if_pos hv]
      have hmeq : measDFS nbrs univ vis st + 1 =
          measDFS nbrs univ vis (x :: st) := by
        simp only [measDFS, List.length_cons]
        omega
      exact IH (measDFS nbrs univ vis st) (by omega) vis st a b
        (fun z hz => hst (List.mem_cons_of_mem _ hz))
        (le_refl _) (by omega) (by omega)
    · simp only [iterDFS, if_neg hv]
      have hfl : (ord (((nbrs x).map (·.1)).filter
          (fun z => z ∉ x :: vis))).length ≤ (nbrs x).length := by
        rw [hordl]
        calc (((nbrs x).map (·.1)).filter (fun z => z ∉ x :: vis)).length
            ≤ ((nbrs x).map (·.1)).length := List.length_filter_le _ _
          _ = (nbrs x).length := List.length_map _ _
      have hdropS : ((univ.filter (fun v => v ∉ x :: vis)).map
            (fun v => 1 + (nbrs v).length)).sum + (1 + (nbrs x).length) ≤
          ((univ.filter (fun v => v ∉ vis)).map
            (fun v => 1 + (nbrs v).length)).sum :=
        sumUnvis_drop (fun v => 1 + (nbrs v).length) univ hx hv
      have hsub : ord (((nbrs x).map (·.1)).filter
          (fun z => z ∉ x :: vis)) ++ st ⊆ univ := by
        intro z hz
        rcases List.mem_append.mp hz with hz | hz
        · have hz2 := hordm _ _ hz
          have hz3 := (List.mem_filter.mp hz2).1
          obtain ⟨q, hq, hqz⟩ := List.mem_map.mp hz3
          exact hqz ▸ hcl x hx q hq
        · exact hst (List.mem_cons_of_mem _ hz)
      have hmeas : measDFS nbrs univ (x :: vis)
          (ord (((nbrs x).map (·.1)).filter (fun z => z ∉ x :: vis)) ++ st)
            + 2 ≤ measDFS nbrs univ vis (x :: st) := by
        simp only [measDFS, List.length_append, List.length_cons]
        omega
      have hrec := IH (measDFS nbrs univ (x :: vis)
          (ord (((nbrs x).map (·.1)).filter (fun z => z ∉ x :: vis)) ++ st))
        (by omega) (x :: vis)
        (ord (((nbrs x).map (·.1)).filter (fun z => z ∉ x :: vis)) ++ st)
        a b hsub (le_refl _) (by omega) (by omega)
      rw [hrec]

set_option maxHeartbeats 1600000 in
theorem iterDFS_recDFS_bridge (nbrs : Int → List (Int × Weight))
    (univ : List Int) (hcl : UnivClosed nbrs univ) :
    ∀ n vis ys st F F2 Fr, ys ⊆ univ → st ⊆ univ →
      measDFS nbrs univ vis (ys ++ st) ≤ n →
      measDFS nbrs univ vis (ys ++ st) ≤ F →
      unvisLen univ vis ≤ Fr →
      measDFS nbrs univ
        (recDFSList (fun y v => recDFS nbrs Fr y v) ys vis).2 st ≤ F2 →
      iterDFS nbrs id F (ys ++ st) vis =
        ((recDFSList (fun y v => recDFS nbrs Fr y v) ys vis).1 ++
            (iterDFS nbrs id F2 st
              (recDFSList (fun y v => recDFS nbrs Fr y v) ys vis).2).1,
          (iterDFS nbrs id F2 st
            (recDFSList (fun y v => recDFS nbrs Fr y v) ys vis).2).2) := by
  intro n
  induction n using Nat.strong_induction_on with
  | _ n IH =>
  intro vis ys st F F2 Fr hys hst hn hF hFr hF2
  match ys with
  | [] =>
    simp only [recDFSList] at hF2 ⊢
    simp only [List.nil_append] at hn hF ⊢
    rw [iterDFS_stab nbrs univ hcl id (fun l x h => h) (fun l => rfl) n vis
      st F F2 hst hn hF hF2]
  | y :: ys =>
    have hyu : y ∈ univ := hys (List.mem_cons_self _ _)
    have hys' : ys ⊆ univ := fun a ha => hys (List.mem_cons_of_mem _ ha)
    have hyst : ys ++ st ⊆ univ := by
      intro z hz
      rcases List.mem_append.mp hz with h | h
      · exact hys' h
      · exact hst h
    have hm1 : 1 ≤ measDFS nbrs univ vis ((y :: ys) ++ st) := by
      simp only [measDFS, List.cons_append, List.length_cons]
      omega
    obtain ⟨a, rfl⟩ : ∃ a, F = a + 1 := ⟨F - 1, by omega⟩
    by_cases hy : y ∈ vis
    · have hskip : recDFSList (fun y v => recDFS nbrs Fr y v) (y :: ys) vis =
          recDFSList (fun y v => recDFS nbrs Fr y v) ys vis := by
        simp only [recDFSList, if_pos hy]
      rw [hskip] at hF2
      have hmeq : measDFS nbrs univ vis (ys ++ st) + 1 =
          measDFS nbrs univ vis ((y :: ys) ++ st) := by
        simp only [measDFS, List.cons_append, List.length_cons]
        omega
      have hLHS : iterDFS nbrs id (a + 1) ((y :: ys) ++ st) vis =
          iterDFS nbrs id a (ys ++ st) vis := by
        show iterDFS nbrs id (a + 1) (y :: (ys ++ st)) vis = _
        simp only [iterDFS, if_pos hy]
      rw [hLHS, hskip]
      exact IH (measDFS nbrs univ vis (ys ++ st)) (by omega) vis ys st a F2 Fr
        hys' hst (le_refl _) (by omega) hFr hF2
    · have h1u := one_le_unvisLen hyu hy
      obtain ⟨c, rfl⟩ : ∃ c, Fr = c + 1 := ⟨Fr - 1, by omega⟩
      have hnb : ((nbrs y).map (·.1)) ⊆ univ := by
        intro z hz
        obtain ⟨q, hq, hqz⟩ := List.mem_map.mp hz
        exact hqz ▸ hcl y hyu q hq
      have hfiltsub : (((nbrs y).map (·.1)).filter
          (fun z => z ∉ y :: vis)) ⊆ univ := by
        intro z hz
        exact hnb (List.mem_filter.mp hz).1
      have hfl : ((((nbrs y).map (·.1)).filter
          (fun z => z ∉ y :: vis))).length ≤ (nbrs y).length := by
        calc (((nbrs y).map (·.1)).filter (fun z => z ∉ y :: vis)).length
            ≤ ((nbrs y).map (·.1)).length := List.length_filter_le _ _
          _ = (nbrs y).length := List.length_map _ _
      have hdropS : ((univ.filter (fun v => v ∉ y :: vis)).map
            (fun v => 1 + (nbrs v).length)).sum + (1 + (nbrs y).length) ≤
          ((univ.filter (fun v => v ∉ vis)).map
            (fun v => 1 + (nbrs v).length)).sum :=
        sumUnvis_drop (fun v => 1 + (nbrs v).length) univ hyu hy
      have hMT : measDFS nbrs univ vis ((y :: ys) ++ st) =
          ys.length + st.length + 1 +
            ((univ.filter (fun v => v ∉ vis)).map
              (fun v => 1 + (nbrs v).length)).sum := by
        simp only [measDFS, List.cons_append, List.length_cons,
          List.length_append]
      have hM1 : measDFS nbrs univ (y :: vis)
          ((((nbrs y).map (·.1)).filter (fun z => z ∉ y :: vis)) ++
            (ys ++ st)) =
          (((nbrs y).map (·.1)).filter (fun z => z ∉ y :: vis)).length +
            (ys.length + st.length) +
            ((univ.filter (fun v => v ∉ y :: vis)).map
              (fun v => 1 + (nbrs v).length)).sum := by
        simp only [measDFS, List.length_append]
      have hsubA : y :: vis ⊆ (recDFSList (fun y v => recDFS nbrs (c + 1) y v)
          (((nbrs y).map (·.1)).filter (fun z => z ∉ y :: vis))
          (y :: vis)).2 :=
        recDFSList_mono _ (fun y2 v => recDFS_mono nbrs (c + 1) y2 v) _ _
      have hsubA2 : vis ⊆ (recDFSList (fun y v => recDFS nbrs (c + 1) y v)
          (((nbrs y).map (·.1)).filter (fun z => z ∉ y :: vis))
          (y :: vis)).2 :=
        fun a ha => hsubA (List.mem_cons_of_mem _ ha)
      have hantiS : ((univ.filter (fun v =>
            v ∉ (recDFSList (fun y v => recDFS nbrs (c + 1) y v)
              (((nbrs y).map (·.1)).filter (fun z => z ∉ y :: vis))
              (y :: vis)).2)).map (fun v => 1 + (nbrs v).length)).sum ≤
          ((univ.filter (fun v => v ∉ y :: vis)).map
            (fun v => 1 + (nbrs v).length)).sum :=
        sumUnvis_anti (fun v => 1 + (nbrs v).length) univ hsubA
      have hM2 : measDFS nbrs univ
          (recDFSList (fun y v => recDFS nbrs (c + 1) y v)
            (((nbrs y).map (·.1)).filter (fun z => z ∉ y :: vis))
            (y :: vis)).2 (ys ++ st) =
          ys.length + st.length +
            ((univ.filter (fun v =>
              v ∉ (recDFSList (fun y v => recDFS nbrs (c + 1) y v)
                (((nbrs y).map (·.1)).filter (fun z => z ∉ y :: vis))
                (y :: vis)).2)).map (fun v => 1 + (nbrs v).length)).sum := by
        simp only [measDFS, List.length_append]
      have hdropU := unvisLen_drop univ hyu hy
      have hFr2 : unvisLen univ (y :: vis) ≤ c + 1 :=
        le_trans (unvisLen_anti univ
          (fun a ha => List.mem_cons_of_mem _ ha)) hFr
      have hFrA : unvisLen univ
          (recDFSList (fun y v => recDFS nbrs (c + 1) y v)
            (((nbrs y).map (·.1)).filter (fun z => z ∉ y :: vis))
            (y :: vis)).2 ≤ c + 1 :=
        le_trans (unvisLen_anti univ hsubA2) hFr
      have hLHS : iterDFS nbrs id (a + 1) ((y :: ys) ++ st) vis =
          (y :: (iterDFS nbrs id a
              ((((nbrs y).map (·.1)).filter (fun z => z ∉ y :: vis)) ++
                (ys ++ st)) (y :: vis)).1,
            (iterDFS nbrs id a
              ((((nbrs y).map (·.1)).filter (fun z => z ∉ y :: vis)) ++
                (ys ++ st)) (y :: vis)).2) := by
        show iterDFS nbrs id (a + 1) (y :: (ys ++ st)) vis = _
        simp only [iterDFS, if_neg hy, id_eq]
      have hIH1 := IH (measDFS nbrs univ (y :: vis)
          ((((nbrs y).map (·.1)).filter (fun z => z ∉ y :: vis)) ++
            (ys ++ st)))
        (by omega) (y :: vis)
        (((nbrs y).map (·.1)).filter (fun z => z ∉ y :: vis)) (ys ++ st) a
        (measDFS nbrs univ
          (recDFSList (fun y v => recDFS nbrs (c + 1) y v)
            (((nbrs y).map (·.1)).filter (fun z => z ∉ y :: vis))
            (y :: vis)).2 (ys ++ st))
        (c + 1) hfiltsub hyst (le_refl _) (by omega) hFr2 (le_refl _)
      have hc2 : unvisLen univ (y :: vis) ≤ c := by omega
      have hstab := (recDFS_stab nbrs univ hcl
          (unvisLen univ (y :: vis))).2 c (c + 1) (y :: vis)
        ((nbrs y).map (·.1)) hnb (le_refl _) hc2 (by omega)
      have hfilt := recDFSList_filter (fun y v => recDFS nbrs (c + 1) y v)
        (fun y2 v => recDFS_mono nbrs (c + 1) y2 v) ((nbrs y).map (·.1))
        (y :: vis) (y :: vis) (fun a ha => ha)
      have h34 : recDFSList (fun y v => recDFS nbrs (c + 1) y v)
          (((nbrs y).map (·.1)).filter (fun z => z ∉ y :: vis))
          (y :: vis) =
          recDFSList (fun y v => recDFS nbrs c y v) ((nbrs y).map (·.1))
            (y :: vis) := by
        rw [hfilt]
        exact hstab.symm
      have hrec0 : recDFS nbrs (c + 1) y vis =
          (y :: (recDFSList (fun y v => recDFS nbrs c y v)
              ((nbrs y).map (·.1)) (y :: vis)).1,
            (recDFSList (fun y v => recDFS nbrs c y v)
              ((nbrs y).map (·.1)) (y :: vis)).2) := by
        simp only [recDFS]
      have hrec1 : recDFS nbrs (c + 1) y vis =
          (y :: (recDFSList (fun y v => recDFS nbrs (c + 1) y v)
              (((nbrs y).map (·.1)).filter (fun z => z ∉ y :: vis))
              (y :: vis)).1,
            (recDFSList (fun y v => recDFS nbrs (c + 1) y v)
              (((nbrs y).map (·.1)).filter (fun z => z ∉ y :: vis))
              (y :: vis)).2) := by
        rw [hrec0, ← h34]
      have hKEY : recDFSList (fun y v => recDFS nbrs (c + 1) y v)
          (y :: ys) vis =
          ((y :: (recDFSList (fun y v => recDFS nbrs (c + 1) y v)
              (((nbrs y).map (·.1)).filter (fun z => z ∉ y :: vis))
              (y :: vis)).1) ++
            (recDFSList (fun y v => recDFS nbrs (c + 1) y v) ys
              (recDFSList (fun y v => recDFS nbrs (c + 1) y v)
                (((nbrs y).map (·.1)).filter (fun z => z ∉ y :: vis))
                (y :: vis)).2).1,
            (recDFSList (fun y v => recDFS nbrs (c + 1) y v) ys
              (recDFSList (fun y v => recDFS nbrs (c + 1) y v)
                (((nbrs y).map (·.1)).filter (fun z => z ∉ y :: vis))
                (y :: vis)).2).2) := by
        simp only [recDFSList, if_neg hy]
        rw [hrec1]
      have hKEY1 : (recDFSList (fun y v => recDFS nbrs (c + 1) y v) (y :: ys) vis).1 =
          (y :: (recDFSList (fun y v => recDFS nbrs (c + 1) y v)
          (((nbrs y).map (·.1)).filter (fun z => z ∉ y :: vis))
          (y :: vis)).1) ++ (recDFSList (fun y v => recDFS nbrs (c + 1) y v) ys
          (recDFSList (fun y v => recDFS nbrs (c + 1) y v)
          (((nbrs y).map (·.1)).filter (fun z => z ∉ y :: vis))
          (y :: vis)).2).1 := by
        rw [hKEY]
      have hKEY2 : (recDFSList (fun y v => recDFS nbrs (c + 1) y v) (y :: ys) vis).2 =
          (recDFSList (fun y v => recDFS nbrs (c + 1) y v) ys
          (recDFSList (fun y v => recDFS nbrs (c + 1) y v)
          (((nbrs y).map (·.1)).filter (fun z => z ∉ y :: vis))
          (y :: vis)).2).2 := by
        rw [hKEY]
      have hF2' : measDFS nbrs univ
          (recDFSList (fun y v => recDFS nbrs (c + 1) y v) ys
          (recDFSList (fun y v => recDFS nbrs (c + 1) y v)
          (((nbrs y).map (·.1)).filter (fun z => z ∉ y :: vis))
          (y :: vis)).2).2 st ≤ F2 :=
        (congrArg (fun t => measDFS nbrs univ t st) hKEY2) ▸ hF2
      have hIH2 := IH (measDFS nbrs univ
          (recDFSList (fun y v => recDFS nbrs (c + 1) y v)
          (((nbrs y).map (·.1)).filter (fun z => z ∉ y :: vis))
          (y :: vis)).2 (ys ++ st))
        (by omega)
        (recDFSList (fun y v => recDFS nbrs (c + 1) y v)
          (((nbrs y).map (·.1)).filter (fun z => z ∉ y :: vis))
          (y :: vis)).2 ys st
        (measDFS nbrs univ
          (recDFSList (fun y v => recDFS nbrs (c + 1) y v)
          (((nbrs y).map (·.1)).filter (fun z => z ∉ y :: vis))
          (y :: vis)).2 (ys ++ st))
        F2 (c + 1) hys' hst (le_refl _) (le_refl _) hFrA hF2'
      have hIH1a : (iterDFS nbrs id a
          ((((nbrs y).map (·.1)).filter (fun z => z ∉ y :: vis)) ++
            (ys ++ st)) (y :: vis)).1 =
          (recDFSList (fun y v => recDFS nbrs (c + 1) y v)
          (((nbrs y).map (·.1)).filter (fun z => z ∉ y :: vis))
          (y :: vis)).1 ++ (iterDFS nbrs id
          (measDFS nbrs univ
          (recDFSList (fun y v => recDFS nbrs (c + 1) y v)
          (((nbrs y).map (·.1)).filter (fun z => z ∉ y :: vis))
          (y :: vis)).2 (ys ++ st))
          (ys ++ st)
          (recDFSList (fun y v => recDFS nbrs (c + 1) y v)
          (((nbrs y).map (·.1)).filter (fun z => z ∉ y :: vis))
          (y :: vis)).2).1 := by
        rw [hIH1]
      have hIH1b : (iterDFS nbrs id a
          ((((nbrs y).map (·.1)).filter (fun z => z ∉ y :: vis)) ++
            (ys ++ st)) (y :: vis)).2 =
          (iterDFS nbrs id
          (measDFS nbrs univ
          (recDFSList (fun y v => recDFS nbrs (c + 1) y v)
          (((nbrs y).map (·.1)).filter (fun z => z ∉ y :: vis))
          (y :: vis)).2 (ys ++ st))
          (ys ++ st)
          (recDFSList (fun y v => recDFS nbrs (c + 1) y v)
          (((nbrs y).map (·.1)).filter (fun z => z ∉ y :: vis))
          (y :: vis)).2).2 := by
        rw [hIH1]
      have hIH2a : (iterDFS nbrs id
          (measDFS nbrs univ
          (recDFSList (fun y v => recDFS nbrs (c + 1) y v)
          (((nbrs y).map (·.1)).filter (fun z => z ∉ y :: vis))
          (y :: vis)).2 (ys ++ st))
          (ys ++ st)
          (recDFSList (fun y v => recDFS nbrs (c + 1) y v)
          (((nbrs y).map (·.1)).filter (fun z => z ∉ y :: vis))
          (y :: vis)).2).1 =
          (recDFSList (fun y v => recDFS nbrs (c + 1) y v) ys
          (recDFSList (fun y v => recDFS nbrs (c + 1) y v)
          (((nbrs y).map (·.1)).filter (fun z => z ∉ y :: vis))
          (y :: vis)).2).1 ++ (iterDFS nbrs id F2 st (recDFSList (fun y v => recDFS nbrs (c + 1) y v) ys
          (recDFSList (fun y v => recDFS nbrs (c + 1) y v)
          (((nbrs y).map (·.1)).filter (fun z => z ∉ y :: vis))
          (y :: vis)).2).2).1 := by
        rw [hIH2]
      have hIH2b : (iterDFS nbrs id
          (measDFS nbrs univ
          (recDFSList (fun y v => recDFS nbrs (c + 1) y v)
          (((nbrs y).map (·.1)).filter (fun z => z ∉ y :: vis))
          (y :: vis)).2 (ys ++ st))
          (ys ++ st)
          (recDFSList (fun y v => recDFS nbrs (c + 1) y v)
          (((nbrs y).map (·.1)).filter (fun z => z ∉ y :: vis))
          (y :: vis)).2).2 =
          (iterDFS nbrs id F2 st (recDFSList (fun y v => recDFS nbrs (c + 1) y v) ys
          (recDFSList (fun y v => recDFS nbrs (c + 1) y v)
          (((nbrs y).map (·.1)).filter (fun z => z ∉ y :: vis))
          (y :: vis)).2).2).2 := by
        rw [hIH2]
      rw [hLHS, hKEY1, hKEY2, hIH1a, hIH1b, hIH2a, hIH2b]
      simp [List.cons_append, List.append_assoc]

theorem filter_not_mem_nil (l : List Int) :
    l.filter (fun v => v ∉ ([] : List Int)) = l := by
  induction l with
  | nil => rfl
  | cons u rest ih => simp [List.filter_cons, ih]

theorem length_le_one_add_sum (l : List Int) (d : Int → Nat) :
    l.length ≤ (l.map (fun v => 1 + d v)).sum := by
  induction l with
  | nil => exact Nat.le_refl _
  | cons u rest ih =>
    simp only [List.length_cons, List.map_cons, List.sum_cons]
    omega

theorem dfsUniv_closed (g : AdjacencyList) (s : Int) :
    UnivClosed g.get_neighbors (dfsUniv g s) := by
  intro v hv q hq
  cases hl : dictLookup g.graph v with
  | none => simp [AdjacencyList.get_neighbors, hl] at hq
  | some l =>
    have hmem : (v, l) ∈ g.graph := dictLookup_mem hl
    have hql : q ∈ l := by
      simpa [AdjacencyList.get_neighbors, hl] using hq
    show q.1 ∈ dfsUniv g s
    rw [dfsUniv]
    apply List.mem_cons_of_mem
    apply List.mem_append.mpr
    right
    apply List.mem_flatten.mpr
    exact ⟨l.map (·.1), List.mem_map.mpr ⟨(v, l), hmem, rfl⟩,
      List.mem_map.mpr ⟨q, hql, rfl⟩⟩

end GraphTraversal

/-- Claim C3: for every graph and every start vertex, the recursive and
the iterative depth-first traversals return exactly the same
visitation-order vertex list — the iterative variant pushes neighbors in
reverse enumeration order, which makes its pop order match the recursive
enumeration order. -/
theorem c3_dfs_variant_equivalence (g : AdjacencyList) (s : Int) :
    GraphTraversal.dfs_recursive g s = GraphTraversal.dfs_iterative g s := by
  have hcl := GraphTraversal.dfsUniv_closed g s
  have hsub : [s] ⊆ GraphTraversal.dfsUniv g s := by
    intro a ha
    have ha2 : a = s := by simpa using ha
    subst ha2
    exact List.mem_cons_self _ _
  have hfilnil : (GraphTraversal.dfsUniv g s).filter
      (fun v => v ∉ ([] : List Int)) = GraphTraversal.dfsUniv g s :=
    GraphTraversal.filter_not_mem_nil _
  have hmeas : measDFS g.get_neighbors (GraphTraversal.dfsUniv g s) []
      ([s] ++ []) + 1 = GraphTraversal.dfsFuel g s := by
    simp only [measDFS, GraphTraversal.dfsFuel, List.append_nil,
      List.length_cons, List.length_nil, hfilnil]
    omega
  have hunvis : unvisLen (GraphTraversal.dfsUniv g s) [] ≤
      GraphTraversal.dfsFuel g s := by
    have hlen := GraphTraversal.length_le_one_add_sum
      (GraphTraversal.dfsUniv g s) (fun v => (g.get_neighbors v).length)
    simp only [unvisLen, hfilnil, GraphTraversal.dfsFuel]
    omega
  have hantiS : (((GraphTraversal.dfsUniv g s).filter (fun v =>
        v ∉ (GraphTraversal.recDFSList (fun y v =>
          GraphTraversal.recDFS g.get_neighbors
            (GraphTraversal.dfsFuel g s) y v) [s] []).2)).map
        (fun v => 1 + (g.get_neighbors v).length)).sum ≤
      (((GraphTraversal.dfsUniv g s).filter
        (fun v => v ∉ ([] : List Int))).map
        (fun v => 1 + (g.get_neighbors v).length)).sum :=
    GraphTraversal.sumUnvis_anti _ _ (List.nil_subset _)
  have hF2 : measDFS g.get_neighbors (GraphTraversal.dfsUniv g s)
      (GraphTraversal.recDFSList (fun y v =>
        GraphTraversal.recDFS g.get_neighbors
          (GraphTraversal.dfsFuel g s) y v) [s] []).2 [] ≤
      GraphTraversal.dfsFuel g s := by
    rw [hfilnil] at hantiS
    have hfueldef : GraphTraversal.dfsFuel g s =
        2 + (((GraphTraversal.dfsUniv g s).map
          (fun v => 1 + (g.get_neighbors v).length)).sum) := rfl
    simp only [measDFS, List.length_nil]
    omega
  have hb := GraphTraversal.iterDFS_recDFS_bridge g.get_neighbors
    (GraphTraversal.dfsUniv g s) hcl (GraphTraversal.dfsFuel g s) [] [s] []
    (GraphTraversal.dfsFuel g s) (GraphTraversal.dfsFuel g s)
    (GraphTraversal.dfsFuel g s) hsub (List.nil_subset _) (by omega)
    (by omega) hunvis hF2
  have hvA : GraphTraversal.recDFSList (fun y v =>
      GraphTraversal.recDFS g.get_neighbors
        (GraphTraversal.dfsFuel g s) y v) [s] [] =
      ((GraphTraversal.recDFS g.get_neighbors
          (GraphTraversal.dfsFuel g s) s []).1,
        (GraphTraversal.recDFS g.get_neighbors
          (GraphTraversal.dfsFuel g s) s []).2) := by
    simp [GraphTraversal.recDFSList]
  simp only [List.append_nil, GraphTraversal.iterDFS_nil] at hb
  rw [hvA] at hb
  show (GraphTraversal.recDFS g.get_neighbors
      (GraphTraversal.dfsFuel g s) s []).1 =
    (GraphTraversal.iterDFS g.get_neighbors id
      (GraphTraversal.dfsFuel g s) [s] []).1
  rw [hb]

namespace GraphTraversal

theorem iterDFS_spec (nbrs : Int → List (Int × Weight)) (univ : List Int)
    (hcl : UnivClosed nbrs univ) (ord : List Int → List Int)
    (hordm : ∀ (l : List Int) (x : Int), x ∈ ord l → x ∈ l)
    (hordl : ∀ l : List Int, (ord l).length = l.length) :
    ∀ n vis st F, st ⊆ univ →
      measDFS nbrs univ vis st ≤ n →
      measDFS nbrs univ vis st ≤ F →
      (∀ x, x ∈ (iterDFS nbrs ord F st vis).2 ↔
          x ∈ vis ∨ x ∈ (iterDFS nbrs ord F st vis).1) ∧
        (iterDFS nbrs ord F st vis).1.Nodup ∧
        (∀ x ∈ (iterDFS nbrs ord F st vis).1, x ∉ vis ∧ x ∈ univ) ∧
        (∀ x ∈ st, x ∈ (iterDFS nbrs ord F st vis).2) := by
  intro n
  induction n using Nat.strong_induction_on with
  | _ n IH =>
  intro vis st F hst hn hF
  match st with
  | [] =>
    rw [iterDFS_nil]
    simp
  | x :: st =>
    have hx : x ∈ univ := hst (List.mem_cons_self _ _)
    have hm1 : 1 ≤ measDFS nbrs univ vis (x :: st) := by
      simp only [measDFS, List.length_cons]
      omega
    obtain ⟨a, rfl⟩ : ∃ a, F = a + 1 := ⟨F - 1, by omega⟩
    by_cases hv : x ∈ vis
    · have heq : iterDFS nbrs ord (a + 1) (x :: st) vis =
          iterDFS nbrs ord a st vis := by
        simp only [iterDFS, if_pos hv]
      have hmeq : measDFS nbrs univ vis st + 1 =
          measDFS nbrs univ vis (x :: st) := by
        simp only [measDFS, List.length_cons]
        omega
      obtain ⟨h1, h2, h3, h4⟩ := IH (measDFS nbrs univ vis st) (by omega)
        vis st a (fun z hz => hst (List.mem_cons_of_mem _ hz)) (le_refl _)
        (by omega)
      rw [heq]
      refine ⟨h1, h2, h3, fun z hz => ?_⟩
      rcases List.mem_cons.mp hz with hz1 | hz1
      · subst hz1
        exact (h1 z).mpr (Or.inl hv)
      · exact h4 z hz1
    · have heq : iterDFS nbrs ord (a + 1) (x :: st) vis =
          (x :: (iterDFS nbrs ord a
              (ord (((nbrs x).map (·.1)).filter (fun z => z ∉ x :: vis)) ++
                st) (x :: vis)).1,
            (iterDFS nbrs ord a
              (ord (((nbrs x).map (·.1)).filter (fun z => z ∉ x :: vis)) ++
                st) (x :: vis)).2) := by
        simp only [iterDFS, if_neg hv]
      have hfl : (ord (((nbrs x).map (·.1)).filter
          (fun z => z ∉ x :: vis))).length ≤ (nbrs x).length := by
        rw [hordl]
        calc (((nbrs x).map (·.1)).filter (fun z => z ∉ x :: vis)).length
            ≤ ((nbrs x).map (·.1)).length := List.length_filter_le _ _
          _ = (nbrs x).length := List.length_map _ _
      have hdropS : ((univ.filter (fun v => v ∉ x :: vis)).map
            (fun v => 1 + (nbrs v).length)).sum + (1 + (nbrs x).length) ≤
          ((univ.filter (fun v => v ∉ vis)).map
            (fun v => 1 + (nbrs v).length)).sum :=
        sumUnvis_drop (fun v => 1 + (nbrs v).length) univ hx hv
      have hsub : ord (((nbrs x).map (·.1)).filter
          (fun z => z ∉ x :: vis)) ++ st ⊆ univ := by
        intro z hz
        rcases List.mem_append.mp hz with hz | hz
        · have hz2 := hordm _ _ hz
          have hz3 := (List.mem_filter.mp hz2).1
          obtain ⟨q, hq, hqz⟩ := List.mem_map.mp hz3
          exact hqz ▸ hcl x hx q hq
        · exact hst (List.mem_cons_of_mem _ hz)
      have hmeas : measDFS nbrs univ (x :: vis)
          (ord (((nbrs x).map (·.1)).filter (fun z => z ∉ x :: vis)) ++ st)
            + 2 ≤ measDFS nbrs univ vis (x :: st) := by
        simp only [measDFS, List.length_append, List.length_cons]
        omega
      obtain ⟨h1, h2, h3, h4⟩ := IH (measDFS nbrs univ (x :: vis)
          (ord (((nbrs x).map (·.1)).filter (fun z => z ∉ x :: vis)) ++ st))
        (by omega) (x :: vis)
        (ord (((nbrs x).map (·.1)).filter (fun z => z ∉ x :: vis)) ++ st)
        a hsub (le_refl _) (by omega)
      rw [heq]
      refine ⟨?_, ?_, ?_, ?_⟩
      · intro z
        constructor
        · intro hz
          rcases (h1 z).mp hz with hz1 | hz1
          · rcases List.mem_cons.mp hz1 with hz2 | hz2
            · exact Or.inr (by rw [hz2]; exact List.mem_cons_self _ _)
            · exact Or.inl hz2
          · exact Or.inr (List.mem_cons_of_mem _ hz1)
        · intro hz
          rcases hz with hz | hz
          · exact (h1 z).mpr (Or.inl (List.mem_cons_of_mem _ hz))
          · rcases List.mem_cons.mp hz with hz2 | hz2
            · exact (h1 z).mpr
                (Or.inl (by rw [hz2]; exact List.mem_cons_self _ _))
            · exact (h1 z).mpr (Or.inr hz2)
      · refine List.nodup_cons.mpr ⟨?_, h2⟩
        intro hmem
        exact (h3 x hmem).1 (List.mem_cons_self _ _)
      · intro z hz
        rcases List.mem_cons.mp hz with hz1 | hz1
        · subst hz1
          exact ⟨hv, hx⟩
        · obtain ⟨hz2, hz3⟩ := h3 z hz1
          exact ⟨fun hzv => hz2 (List.mem_cons_of_mem _ hzv), hz3⟩
      · intro z hz
        rcases List.mem_cons.mp hz with hz1 | hz1
        · subst hz1
          exact (h1 z).mpr (Or.inl (List.mem_cons_self _ _))
        · exact h4 z (List.mem_append.mpr (Or.inr hz1))

end GraphTraversal

theorem closed_univClosed (g : AdjacencyList) (hc : Closed g) :
    UnivClosed g.get_neighbors g.get_vertices := by
  intro v hv q hq
  cases hl : dictLookup g.graph v with
  | none => simp [AdjacencyList.get_neighbors, hl] at hq
  | some l =>
    have hmem : (v, l) ∈ g.graph := dictLookup_mem hl
    have hql : q ∈ l := by
      simpa [AdjacencyList.get_neighbors, hl] using hq
    show q.1 ∈ dictKeys g.graph
    exact (dictMem_iff_keys _ _).mp (hc (v, l) hmem q hql)

theorem compFuel_ok (g : AdjacencyList) (v : Int) (vis : List Int) :
    measDFS g.get_neighbors g.get_vertices vis [v] ≤
      GraphTraversal.dfsFuel g v := by
  have h1 : ((g.get_vertices.filter (fun z => z ∉ vis)).map
      (fun z => 1 + (g.get_neighbors z).length)).sum ≤
      ((g.get_vertices.filter (fun z => z ∉ ([] : List Int))).map
        (fun z => 1 + (g.get_neighbors z).length)).sum :=
    GraphTraversal.sumUnvis_anti _ _ (List.nil_subset _)
  rw [GraphTraversal.filter_not_mem_nil] at h1
  have h2 : GraphTraversal.dfsFuel g v =
      2 + ((1 + (g.get_neighbors v).length) +
        (((g.get_vertices ++
          (g.graph.map (fun p => p.2.map (·.1))).flatten).map
            (fun z => 1 + (g.get_neighbors z).length)).sum)) := rfl
  have h3 : ((g.get_vertices ++
      (g.graph.map (fun p => p.2.map (·.1))).flatten).map
        (fun z => 1 + (g.get_neighbors z).length)).sum =
      (g.get_vertices.map (fun z => 1 + (g.get_neighbors z).length)).sum +
        ((g.graph.map (fun p => p.2.map (·.1))).flatten.map
          (fun z => 1 + (g.get_neighbors z).length)).sum := by
    rw [List.map_append, List.sum_append]
  simp only [measDFS, List.length_cons, List.length_nil]
  omega

theorem fccLoop_spec (g : AdjacencyList)
    (hcl : UnivClosed g.get_neighbors g.get_vertices) :
    ∀ rest vis, rest ⊆ g.get_vertices →
      ((Connectivity.fccLoop g rest vis).flatten.Nodup ∧
        (∀ x ∈ (Connectivity.fccLoop g rest vis).flatten,
          x ∉ vis ∧ x ∈ g.get_vertices) ∧
        (∀ v ∈ rest,
          v ∈ vis ∨ v ∈ (Connectivity.fccLoop g rest vis).flatten)) := by
  intro rest
  induction rest with
  | nil =>
    intro vis h
    simp [Connectivity.fccLoop]
  | cons v rest ih =>
    intro vis hsub
    have hv2 : v ∈ g.get_vertices := hsub (List.mem_cons_self _ _)
    have hrsub : rest ⊆ g.get_vertices :=
      fun a ha => hsub (List.mem_cons_of_mem _ ha)
    by_cases hv : v ∈ vis
    · have heq : Connectivity.fccLoop g (v :: rest) vis =
          Connectivity.fccLoop g rest vis := by
        simp only [Connectivity.fccLoop, if_pos hv]
      rw [heq]
      obtain ⟨h1, h2, h3⟩ := ih vis hrsub
      refine ⟨h1, h2, fun z hz => ?_⟩
      rcases List.mem_cons.mp hz with hz1 | hz1
      · subst hz1
        exact Or.inl hv
      · exact h3 z hz1
    · have heq : Connectivity.fccLoop g (v :: rest) vis =
          (GraphTraversal.iterDFS g.get_neighbors List.reverse
              (GraphTraversal.dfsFuel g v) [v] vis).1 ::
            Connectivity.fccLoop g rest
              (GraphTraversal.iterDFS g.get_neighbors List.reverse
                (GraphTraversal.dfsFuel g v) [v] vis).2 := by
        simp only [Connectivity.fccLoop, if_neg hv]
        rfl
      have hvsub : [v] ⊆ g.get_vertices := by
        intro a ha
        have ha2 : a = v := by simpa using ha
        subst ha2
        exact hv2
      have hms := compFuel_ok g v vis
      obtain ⟨c1, c2, c3, c4⟩ := GraphTraversal.iterDFS_spec
        g.get_neighbors g.get_vertices hcl List.reverse
        (fun l x h => (List.mem_reverse).mp h)
        (fun l => List.length_reverse l)
        (measDFS g.get_neighbors g.get_vertices vis [v]) vis [v]
        (GraphTraversal.dfsFuel g v) hvsub (le_refl _) hms
      have hvr1 : v ∈ (GraphTraversal.iterDFS g.get_neighbors List.reverse
          (GraphTraversal.dfsFuel g v) [v] vis).1 := by
        have hv2r := c4 v (List.mem_cons_self _ _)
        rcases (c1 v).mp hv2r with h | h
        · exact absurd h hv
        · exact h
      obtain ⟨h1, h2, h3⟩ := ih (GraphTraversal.iterDFS g.get_neighbors
        List.reverse (GraphTraversal.dfsFuel g v) [v] vis).2 hrsub
      rw [heq]
      simp only [List.flatten_cons]
      refine ⟨?_, ?_, ?_⟩
      · refine List.nodup_append.mpr ⟨c2, h1, ?_⟩
        intro a ha hb
        exact (h2 a hb).1 ((c1 a).mpr (Or.inr ha))
      · intro z hz
        rcases List.mem_append.mp hz with hz1 | hz1
        · exact c3 z hz1
        · obtain ⟨hz2, hz3⟩ := h2 z hz1
          exact ⟨fun hzv => hz2 ((c1 z).mpr (Or.inl hzv)), hz3⟩
      · intro z hz
        rcases List.mem_cons.mp hz with hz1 | hz1
        · subst hz1
          exact Or.inr (List.mem_append.mpr (Or.inl hvr1))
        · rcases h3 z hz1 with hz2 | hz2
          · rcases (c1 z).mp hz2 with hz3 | hz3
            · exact Or.inl hz3
            · exact Or.inr (List.mem_append.mpr (Or.inl hz3))
          · exact Or.inr (List.mem_append.mpr (Or.inr hz2))

/-- Claim C9: on any store satisfying the key-closure invariant of
API-built graphs, a graph with no vertices is reported connected, the
connected components cover every vertex exactly once (their concatenation
is duplicate-free and holds exactly the vertices), and on a nonempty
store is_connected returns true iff find_connected_components yields
exactly one component covering all vertices. -/
theorem c9_connectivity (g : AdjacencyList) (hc : Closed g) :
    (g.get_vertices = [] → Connectivity.is_connected g = true) ∧
    (Connectivity.find_connected_components g).flatten.Nodup ∧
    (∀ x, x ∈ (Connectivity.find_connected_components g).flatten ↔
      x ∈ g.get_vertices) ∧
    (g.get_vertices ≠ [] →
      (Connectivity.is_connected g = true ↔
        ∃ c, Connectivity.find_connected_components g = [c] ∧
          ∀ x, x ∈ c ↔ x ∈ g.get_vertices)) := by
  have hcl := closed_univClosed g hc
  obtain ⟨h1, h2, h3⟩ := fccLoop_spec g hcl g.get_vertices
    [] (fun a ha => ha)
  have hfd : Connectivity.find_connected_components g =
      Connectivity.fccLoop g g.get_vertices [] := rfl
  have hmemiff : ∀ x,
      x ∈ (Connectivity.find_connected_components g).flatten ↔
        x ∈ g.get_vertices := by
    intro x
    rw [hfd]
    constructor
    · intro hx
      exact (h2 x hx).2
    · intro hx
      rcases h3 x hx with hx1 | hx1
      · exact absurd hx1 (List.not_mem_nil x)
      · exact hx1
  refine ⟨?_, by rw [hfd]; exact h1, hmemiff, ?_⟩
  · intro hemp
    simp [Connectivity.is_connected, hemp]
  · intro hne
    constructor
    · intro hconn
      simp only [Connectivity.is_connected, if_neg hne,
        beq_iff_eq] at hconn
      obtain ⟨comp, hcomp⟩ := List.length_eq_one.mp hconn
      refine ⟨comp, hcomp, fun x => ?_⟩
      have hfl : (Connectivity.find_connected_components g).flatten =
          comp := by
        rw [hcomp]
        simp
      rw [← hfl]
      exact hmemiff x
    · intro hex
      obtain ⟨comp, hcomp, hcov⟩ := hex
      have hlen : (Connectivity.find_connected_components g).length = 1 := by
        rw [hcomp]
        rfl
      simp only [Connectivity.is_connected, if_neg hne, beq_iff_eq]
      exact hlen

/-- Witness for claim C9: the §8 connectivity graph (edges
{(1,2),(2,3),(4,5)} plus isolated vertex 6) instantiates the theorem; its
closure hypothesis is discharged by evaluation. -/
theorem c9_witness :
    (connTestGraph.get_vertices = [] →
      Connectivity.is_connected connTestGraph = true) ∧
    (Connectivity.find_connected_components connTestGraph).flatten.Nodup ∧
    (∀ x, x ∈ (Connectivity.find_connected_components
      connTestGraph).flatten ↔ x ∈ connTestGraph.get_vertices) ∧
    (connTestGraph.get_vertices ≠ [] →
      (Connectivity.is_connected connTestGraph = true ↔
        ∃ c, Connectivity.find_connected_components connTestGraph = [c] ∧
          ∀ x, x ∈ c ↔ x ∈ connTestGraph.get_vertices)) :=
  c9_connectivity connTestGraph (by unfold Closed; decide)

end GraphEngine
